import Mathlib

/-!
Verification of the Query Context Resolution & Pagination Engine of `main.py`.

Strings are modelled as `List Char`.  The Python regular-expression fragment
used by the source (`\s`, `\w`, the identifier classes) is modelled over ASCII,
matching Python's behaviour on ASCII input.
-/

namespace NewSql

/-- ASCII model of Python's whitespace class `\s` (and of `str.strip`). -/
def isWsChar (c : Char) : Bool :=
  c = ' ' || c = '\t' || c = '\n' || c = '\r' || c = Char.ofNat 11 || c = Char.ofNat 12

/-- ASCII model of Python's word class `\w` = `[a-zA-Z0-9_]`. -/
def isWordChar (c : Char) : Bool :=
  c.isAlpha || c.isDigit || c = '_'

/-- First character of the identifier group: `[a-zA-Z_]`. -/
def isIdStart (c : Char) : Bool :=
  c.isAlpha || c = '_'

/-- Continuation characters of the identifier group: `[a-zA-Z0-9_.]`. -/
def isIdChar (c : Char) : Bool :=
  isWordChar c || c = '.'

/-- The characters accepted by the second regex group `(\s|$|;|,|\))`. -/
def isSfxChar (c : Char) : Bool :=
  isWsChar c || c = ';' || c = ',' || c = ')'

/-- `str.strip()` (ASCII whitespace). -/
def trimL (l : List Char) : List Char :=
  ((l.dropWhile isWsChar).reverse.dropWhile isWsChar).reverse

/-- `str.upper()` (ASCII). -/
def upperL (l : List Char) : List Char :=
  l.map Char.toUpper

/-- `str.split(';')`. -/
def splitSemi : List Char → List (List Char)
  | [] => [[]]
  | c :: rest =>
    match splitSemi rest with
    | [] => [[]]
    | s :: ss => if c = ';' then [] :: s :: ss else (c :: s) :: ss

/-- `[stmt.strip() for stmt in query.split(';') if stmt.strip()]`. -/
def splitStatements (buffer : List Char) : List (List Char) :=
  ((splitSemi buffer).map trimL).filter (fun s => s ≠ [])

/-- `'; '.join(statements)`. -/
def joinSemi (l : List (List Char)) : List Char :=
  (l.intersperse (';' :: [' '])).flatten

/-- The source's test for a context-switch statement:
`stmt.upper().startswith('USE ')` (a literal space after the keyword). -/
def isUseStmt (s : List Char) : Bool :=
  ("USE ".data).isPrefixOf (upperL s)

/-- The spec's wording of the same test: the case-insensitive prefix is the
keyword `USE` followed by (any) whitespace.  Used to compare spec and code. -/
def specIsUseStmt (s : List Char) : Bool :=
  upperL (s.take 3) = "USE".data &&
    match s.drop 3 with
    | c :: _ => isWsChar c
    | [] => false

/-- Session context: active connection and active schema/database name. -/
structure Session where
  conn : List Char
  db : List Char
deriving DecidableEq, Repr

/-- Outcome of `DuckDBGUI.execute_query` seen from the pipeline's surface. -/
inductive GuiOutcome where
  /-- No valid statements were present (nothing happened). -/
  | noQuery : GuiOutcome
  /-- Only `USE` statements were present: context changed, nothing executed. -/
  | contextOnly : GuiOutcome
  /-- The joined non-`USE` statements are handed to the paginated executor. -/
  | execute (q : List Char) : GuiOutcome
deriving DecidableEq, Repr

/-- The `for stmt in statements` loop of `DuckDBGUI.execute_query`
(lines 4453-4470): `USE` statements update `current_database` in order and are
dropped; the others are collected in order. -/
def processUse (st : Session) : List (List Char) → Session × List (List Char)
  | [] => (st, [])
  | s :: rest =>
    if isUseStmt s then processUse { st with db := trimL (s.drop 4) } rest
    else
      let r := processUse st rest
      (r.1, s :: r.2)

/-- `DuckDBGUI.execute_query` (lines 4439-4482): strip the buffer, split on
`;`, consume `USE` statements, then either execute the re-joined remainder or
finish with only a context change. -/
def executeQuery (st : Session) (buffer : List Char) : Session × GuiOutcome :=
  let stmts := splitStatements (trimL buffer)
  if stmts = [] then (st, .noQuery)
  else
    let r := processUse st stmts
    if r.2 = [] then (r.1, .contextOnly) else (r.1, .execute (joinSemi r.2))

/-- The per-reference rewrite of `QueryWorker.preprocess_query`
(lines 1288-1336).  `conn`/`db` are the worker's `current_connection` and
`current_database`; an absent (`None`) connection is modelled as `[]`,
matching Python truthiness in `if self.current_connection and ...`. -/
def newTableRef (conn db ref : List Char) : List Char :=
  if ref.count '.' = 0 then
    if conn ≠ "local".data then
      (if conn ≠ [] ∧ conn ≠ "local".data then conn ++ '.' :: db else db) ++ '.' :: ref
    else ref
  else if ref.count '.' = 1 then
    let a := ref.takeWhile (fun c => c ≠ '.')
    if a = "local".data then ref
    else if conn ≠ "local".data then
      if ¬ ((conn ++ ['.']).isPrefixOf ref) then conn ++ '.' :: ref else ref
    else ref
  else ref

/-- Case-insensitive keyword parse: consumes exactly the keyword, returning
the rest of the input (regex `KW` under `re.IGNORECASE`; the stored keyword is
upper-case). -/
def matchKw : List Char → List Char → Option (List Char)
  | [], s => some s
  | _ :: _, [] => none
  | k :: ks, c :: cs => if c.toUpper = k then matchKw ks cs else none

/-- A successful match of `\bKW\s+([a-zA-Z_][a-zA-Z0-9_.]+)(\s|$|;|,|\))`:
the captured reference, the captured one-character suffix (empty for `$`),
and the input remaining after the whole match. -/
structure MatchRes where
  ref : List Char
  sfx : List Char
  rest : List Char
deriving DecidableEq, Repr

/-- Attempt the pattern at the head of `s` (the `\b` before the keyword is
checked by the caller).  Greedy `\s+` and greedy identifier run followed by a
single-character (or end-of-input) suffix — backtracking cannot succeed in
this pattern because the identifier class and the suffix class are disjoint. -/
def tryMatch (kw : List Char) (s : List Char) : Option MatchRes :=
  match matchKw kw s with
  | none => none
  | some r1 =>
    let ws := r1.takeWhile isWsChar
    let r2 := r1.dropWhile isWsChar
    if ws = [] then none
    else
      match r2 with
      | [] => none
      | c :: cs =>
        if isIdStart c then
          let run := cs.takeWhile isIdChar
          let r3 := cs.dropWhile isIdChar
          if run = [] then none
          else
            match r3 with
            | [] => some ⟨c :: run, [], []⟩
            | d :: ds => if isSfxChar d then some ⟨c :: run, [d], ds⟩ else none
        else none

/-- One `re.finditer` pass for a single keyword together with the reversed
replacement loop of `preprocess_query`: since the matches are non-overlapping
and are replaced back-to-front (so positions stay valid), the net effect is a
single left-to-right scan that replaces every match as it is found.
`prevW` records whether the previous character is a word character (the `\b`
context); `fuel` is a structural bound (one character is consumed per step at
minimum). -/
def scanAux (rw : List Char → List Char) (kw : List Char) :
    Nat → Bool → List Char → List Char
  | 0, _, s => s
  | fuel + 1, prevW, s =>
    match s with
    | [] => []
    | c :: cs =>
      if prevW then c :: scanAux rw kw fuel (isWordChar c) cs
      else
        match tryMatch kw s with
        | some m => kw ++ ' ' :: rw m.ref ++ m.sfx ++ scanAux rw kw fuel false m.rest
        | none => c :: scanAux rw kw fuel (isWordChar c) cs

/-- A full pass of one pattern over a query. -/
def passKw (rw : List Char → List Char) (kw : List Char) (s : List Char) :
    List Char :=
  scanAux rw kw s.length false s

/-- The four patterns, in the order the source applies them. -/
def kwList : List (List Char) := ["FROM".data, "JOIN".data, "INTO".data, "UPDATE".data]

/-- The reference-qualification transform of `preprocess_query`
(lines 1293-1340): the four keyword passes applied in order. -/
def applyQualify (conn db s : List Char) : List Char :=
  kwList.foldl (fun q kw => passKw (newTableRef conn db) kw q) s

/-- Result of `QueryWorker.preprocess_query`: either the context-switch
exception (with the extracted database name) or the preprocessed query. -/
inductive PreResult where
  | ctxSwitch (db : List Char) : PreResult
  | ok (q : List Char) : PreResult
deriving DecidableEq, Repr

/-- `QueryWorker.preprocess_query` (lines 1260-1342). -/
def preprocessModel (conn db q : List Char) : PreResult :=
  let q := trimL q
  if ("USE ".data).isPrefixOf (upperL q) then
    let usePart := trimL (q.drop 4)
    .ctxSwitch (trimL (usePart.takeWhile
      (fun c => ¬ (c = ';' ∨ c = '\n' ∨ c = '\r'))))
  else if db ≠ [] ∧ db ≠ "local".data then .ok (applyQualify conn db q)
  else .ok q

/-- `str(e)` of the context-switch exception raised at line 1280. -/
def ctxSwitchMsg (db : List Char) : List Char :=
  "Database context switched to '".data ++ db ++
    "'. Please run your next query.".data

/-- `processed_query.rstrip().rstrip(';')`. -/
def cleanQuery (l : List Char) : List Char :=
  ((((l.reverse).dropWhile isWsChar).dropWhile (fun c => c = ';'))).reverse

/-- `query_upper.startswith('SELECT') or query_upper.startswith('WITH')`
on `processed_query.strip().upper()`. -/
def isReadQuery (q : List Char) : Bool :=
  ("SELECT".data).isPrefixOf (upperL (trimL q)) ||
    ("WITH".data).isPrefixOf (upperL (trimL q))

/-- `"SELECT COUNT(*) FROM (" + q + ") AS count_subquery"`. -/
def mkCountQuery (inner : List Char) : List Char :=
  "SELECT COUNT(*) FROM (".data ++ inner ++ ") AS count_subquery".data

/-- Substring containment, modelling Python's `in` on strings. -/
def hasSub (pat : List Char) : List Char → Bool
  | [] => pat.isPrefixOf []
  | c :: rest => pat.isPrefixOf (c :: rest) || hasSub pat rest

/-- `'LIMIT' in query_upper` — a plain substring test. -/
def containsLIMIT (q : List Char) : Bool :=
  hasSub ("LIMIT".data) (upperL q)

/-- The spec's wording: the query contains `LIMIT` as a *token*
(word-boundary on both sides, case-insensitive).  Used to compare spec and
code. -/
def containsLIMITToken (q : List Char) : Bool :=
  tokenScan (upperL q) false
where
  tokenHead (l : List Char) : Bool :=
    ("LIMIT".data).isPrefixOf l &&
      (match l.drop 5 with
       | [] => true
       | d :: _ => ! isWordChar d)
  tokenScan : List Char → Bool → Bool
    | [], _ => false
    | c :: cs, prevW =>
      (! prevW && tokenHead (c :: cs)) || tokenScan cs (isWordChar c)

/-- Decimal rendering of a Python int inside an f-string. -/
def intChars (n : Int) : List Char := (toString n).data

/-- The row-slice query built at lines 1376-1385: wrap when the cleaned query
contains `LIMIT` (as a substring, case-insensitively), else append. -/
def mkSliceQuery (cq : List Char) (ps pn : Int) : List Char :=
  let off := pn * ps
  if containsLIMIT cq then
    "SELECT * FROM (".data ++ cq ++ ") AS paginated_subquery LIMIT ".data ++
      intChars ps ++ " OFFSET ".data ++ intChars off
  else
    cq ++ " LIMIT ".data ++ intChars ps ++ " OFFSET ".data ++ intChars off

/-- A row of scalar results. -/
abbrev Row := List Int

/-- The external execution engine: `execute(sql).fetchall()` together with
`connection.description`, or a raised error message. -/
abbrev Engine := List Char → Except (List Char) (List Row × List (List Char))

/-- `fetchone()[0]` on the count result, `none` when it raises
(no rows, empty row, ...); the bare `except:` catches every such failure. -/
def fetchOneFirst (rows : List Row) : Option Int :=
  match rows with
  | (v :: _) :: _ => some v
  | _ => none

/-- The payload of a successful `finished` signal. -/
structure PageResult where
  rows : List Row
  cols : List (List Char)
  total : Int
deriving DecidableEq, Repr

/-- `QueryWorker.run` (lines 1344-1398): preprocess, classify, count,
paginate, with the count-failure fallback; errors are the `error.emit`
messages of the outer `except`. -/
def workerRun (ex : Engine) (query conn db : List Char) (ps pn : Int) :
    Except (List Char) PageResult :=
  match preprocessModel conn db query with
  | .ctxSwitch d => .error (ctxSwitchMsg d)
  | .ok pq =>
    if isReadQuery pq ∧ 0 < ps then
      let cq := cleanQuery pq
      match
        (match ex (mkCountQuery cq) with
         | .error _ => none
         | .ok r => fetchOneFirst r.1) with
      | none =>
        match ex pq with
        | .error e => .error e
        | .ok r => .ok ⟨r.1, r.2, -1⟩
      | some total =>
        match ex (mkSliceQuery cq ps pn) with
        | .error e => .error e
        | .ok r => .ok ⟨r.1, r.2, total⟩
    else
      match ex pq with
      | .error e => .error e
      | .ok r => .ok ⟨r.1, r.2, if r.1 = [] then 0 else (r.1.length : Int)⟩

/-- One probe of `on_query_error` (lines 4598-4606): for a connection name,
either the schema listing returned by the catalog query, or `none` when the
probe raised (the `except: continue`). -/
abbrev Probe := List Char × Option (List (List Char))

/-- The connection-resolution loop of `on_query_error` (lines 4596-4606):
`current_connection` defaults to `'local'`; attached connections are probed
in registry order and the first one whose listing contains the schema wins. -/
def resolveConnection (reg : List Probe) (d : List Char) : List Char :=
  match reg with
  | [] => "local".data
  | (name, res) :: rest =>
    match res with
    | some schemas => if schemas.contains d then name else resolveConnection rest d
    | none => resolveConnection rest d

/-- The context-switch branch of `on_query_error` (lines 4593-4610): set the
schema from the message and re-derive the connection by probing. -/
def onCtxSwitch (reg : List Probe) (newDb : List Char) : Session :=
  ⟨resolveConnection reg newDb, newDb⟩

/-- `DuckDBGUI.disconnect_database` (lines 4985-4999), restricted to the
session fields: reset both to `'local'` iff the disconnected connection is
the active one. -/
def disconnectDatabase (st : Session) (name : List Char) : Session :=
  if st.conn = name then ⟨"local".data, "local".data⟩ else st

/-- `scanAux` with its canonical fuel. -/
def scanF (rw : List Char → List Char) (kw : List Char) (p : Bool)
    (s : List Char) : List Char :=
  scanAux rw kw s.length p s

/-- Shape of a captured reference: `[a-zA-Z_][a-zA-Z0-9_.]+`. -/
def refShape : List Char → Bool
  | [] => false
  | [_] => false
  | c :: cs => isIdStart c && cs.all isIdChar

/-- Shape of the captured suffix of a match. -/
def sfxOK (sfx rest : List Char) : Prop :=
  (sfx = [] ∧ rest = []) ∨ (∃ d, sfx = [d] ∧ isSfxChar d = true)

/-- An identifier token: a letter or underscore followed by word characters. -/
def identTok : List Char → Bool
  | [] => false
  | c :: cs => isIdStart c && cs.all isWordChar

/-- The well-formedness facts used about the four keywords. -/
def kwGood (kw : List Char) : Prop :=
  4 ≤ kw.length ∧ kw.all isIdStart = true ∧ kw.all isWordChar = true ∧
    kw.map Char.toUpper = kw

/-- `kwP` does not end in `kwS` with a nonempty remainder. -/
def kwNoEnd (kwP kwS : List Char) : Prop :=
  ∀ A, kwP = A ++ kwS → A = []

/-- The first letters of two keywords differ. -/
def kwHeadNe (kw1 kw2 : List Char) : Prop :=
  ∀ c1 c2 t1 t2, kw1 = c1 :: t1 → kw2 = c2 :: t2 → c1 ≠ c2

/-- The word-character state after scanning a list of characters. -/
def prevAfter (p : Bool) : List Char → Bool
  | [] => p
  | c :: a => prevAfter (isWordChar c) a

/-- The scan walks `a` verbatim before reaching `v`: each position is either
shielded by a preceding word character or fails to match. -/
inductive Walk (kw : List Char) : Bool → List Char → List Char → Prop
  | nil (p : Bool) (v : List Char) : Walk kw p [] v
  | skip (c : Char) (a v : List Char) :
      Walk kw (isWordChar c) a v → Walk kw true (c :: a) v
  | step (c : Char) (a v : List Char) :
      tryMatch kw (c :: (a ++ v)) = none →
      Walk kw (isWordChar c) a v → Walk kw false (c :: a) v

/-- Modelled from the spec: the external execution engine's COUNT/LIMIT/OFFSET
contract.  Whenever the engine answers both the count query and the slice
query built from the same cleaned statement, the slice carries exactly
`min(page_size, max(0, total - page_number*page_size))` rows. -/
def PagLaw (ex : Engine) : Prop :=
  ∀ inner ps pn t rows cols,
    (match ex (mkCountQuery inner) with
     | .error _ => none
     | .ok r => fetchOneFirst r.1) = some t →
    ex (mkSliceQuery inner ps pn) = .ok (rows, cols) →
    (rows.length : Int) = min ps (max 0 (t - pn * ps))

/-- A concrete engine answering only the bare statement `SELECT 1`. -/
def exC3 : Engine := fun s =>
  if s = "SELECT 1".data then .ok ([[5]], ["msg".data]) else .error "err".data

/-- A concrete engine answering only `SELECT * FROM v`, so that every count
query fails. -/
def exC4 : Engine := fun s =>
  if s = "SELECT * FROM v".data then .ok ([[1], [2]], ["a".data])
  else .error "boom".data

/-- A concrete engine answering the count query and the wrapped slice query
for `SELECT * FROM t LIMIT 5`. -/
def exC7 : Engine := fun s =>
  if s = mkCountQuery (cleanQuery "SELECT * FROM t LIMIT 5".data) then
    .ok ([[5]], ["cnt".data])
  else if s = mkSliceQuery (cleanQuery "SELECT * FROM t LIMIT 5".data) 100 0 then
    .ok ([[1]], ["x".data])
  else .error "e".data

/-! ### Helper lemmas -/

theorem takeWhile_all_append (p : Char → Bool) (l t : List Char)
    (h : ∀ c ∈ l, p c = true) :
    (l ++ t).takeWhile p = l ++ t.takeWhile p := by
  induction l with
  | nil => rfl
  | cons c cs ih =>
    simp only [List.cons_append, List.takeWhile_cons, h c (by simp)]
    rw [ih (fun d hd => h d (by simp [hd]))]
    simp

theorem processUse_conn (st : Session) (l : List (List Char)) :
    (processUse st l).1.conn = st.conn := by
  induction l generalizing st with
  | nil => rfl
  | cons s rest ih =>
    by_cases h : isUseStmt s
    · simp only [processUse, if_pos h]; exact ih _
    · simp only [processUse, if_neg h]; exact ih _

theorem processUse_db (st : Session) (l : List (List Char)) :
    (processUse st l).1.db =
      l.foldl (fun d s => if isUseStmt s then trimL (s.drop 4) else d) st.db := by
  induction l generalizing st with
  | nil => rfl
  | cons s rest ih =>
    by_cases h : isUseStmt s
    · simp only [processUse, if_pos h, List.foldl_cons]
      rw [ih]
    · simp only [processUse, if_neg h, List.foldl_cons]
      rw [ih]

theorem processUse_rest (st : Session) (l : List (List Char)) :
    (processUse st l).2 = l.filter (fun s => ! isUseStmt s) := by
  induction l generalizing st with
  | nil => rfl
  | cons s rest ih =>
    by_cases h : isUseStmt s
    · simp only [processUse, if_pos h]
      rw [ih]
      simp [List.filter_cons, h]
    · simp only [processUse, if_neg h]
      rw [ih]
      simp [List.filter_cons, h]

/-! ### Claim C9 -/

/-- Claim C9: whenever connection `name` is disconnected while it is the
session's active connection, both `active_connection` and `active_schema`
are reset to the default `local`. -/
theorem c9_theorem (st : Session) (name : List Char) (h : st.conn = name) :
    (disconnectDatabase st name).conn = "local".data ∧
    (disconnectDatabase st name).db = "local".data := by
  simp [disconnectDatabase, h]

theorem c9_witness :
    (disconnectDatabase ⟨"srv1".data, "sales".data⟩ "srv1".data).conn = "local".data ∧
    (disconnectDatabase ⟨"srv1".data, "sales".data⟩ "srv1".data).db = "local".data :=
  c9_theorem ⟨"srv1".data, "sales".data⟩ "srv1".data rfl

/-! ### Claim C2 -/

/-- A probe succeeds for schema `d` iff it returned a listing containing `d`. -/
def probeHit (d : List Char) (p : Probe) : Bool :=
  match p.2 with
  | some schemas => schemas.contains d
  | none => false

theorem resolveConnection_find (reg : List Probe) (d : List Char) :
    resolveConnection reg d =
      (match reg.find? (probeHit d) with
       | some p => p.1
       | none => "local".data) := by
  induction reg with
  | nil => rfl
  | cons p rest ih =>
    obtain ⟨name, res⟩ := p
    rw [List.find?_cons]
    cases res with
    | none =>
      have hp : probeHit d (name, none) = false := rfl
      rw [hp]
      simpa [resolveConnection] using ih
    | some schemas =>
      cases h : schemas.contains d with
      | true =>
        have hp : probeHit d (name, some schemas) = true := h
        simp only [resolveConnection, hp]
        rw [if_pos h]
      | false =>
        have hp : probeHit d (name, some schemas) = false := h
        simp only [resolveConnection, hp]
        rw [if_neg (by intro hcc; rw [hcc] at h; simp at h)]
        exact ih

/-- Counterexample to claim C2: in the main pipeline, consuming `USE sales`
does not re-derive `active_connection` at all — it stays on the previously
active connection `srv1` instead of being re-derived by probing (which, with
no attached connection exposing `sales`, would have to yield `local`). -/
theorem c2_counterexample :
    (executeQuery ⟨"srv1".data, "x".data⟩ "USE sales".data).1 =
      ⟨"srv1".data, "sales".data⟩ ∧
    ("srv1".data : List Char) ≠ "local".data := by
  constructor
  · rfl
  · decide

/-- Claim C2 (amended): consuming a `USE` statement in the execute pipeline
leaves `active_connection` unchanged (only `active_schema` is updated);
probing re-derivation happens only in the error-path handler, which defaults
to `local` and assigns the first attached connection, in registry order,
whose successful probe lists the schema — `local` when no probe matches. -/
theorem c2_theorem :
    (∀ (st : Session) (buffer : List Char),
        ((executeQuery st buffer).1).conn = st.conn) ∧
    (∀ (reg : List Probe) (newDb : List Char),
        (onCtxSwitch reg newDb).db = newDb ∧
        (onCtxSwitch reg newDb).conn =
          (match reg.find? (probeHit newDb) with
           | some p => p.1
           | none => "local".data)) := by
  constructor
  · intro st buffer
    unfold executeQuery
    by_cases h : splitStatements (trimL buffer) = []
    · simp [h]
    · simp only [if_neg h]
      by_cases h2 : (processUse st (splitStatements (trimL buffer))).2 = []
      · simp only [if_pos h2]; exact processUse_conn _ _
      · simp only [if_neg h2]; exact processUse_conn _ _
  · intro reg newDb
    exact ⟨rfl, resolveConnection_find reg newDb⟩

/-! ### Claim C5 -/

/-- Claim C5: a matched bare (0-dot) reference is left unchanged when the
active connection is the default, and otherwise prefixed with
`{active_connection}.{active_schema}.`; in particular
`SELECT * FROM orders` becomes `SELECT * FROM mysrv.sales.orders`. -/
theorem c5_theorem :
    (∀ conn db ref : List Char, ref.count '.' = 0 → conn ≠ [] →
        newTableRef conn db ref =
          if conn = "local".data then ref
          else conn ++ '.' :: db ++ '.' :: ref) ∧
    applyQualify "mysrv".data "sales".data "SELECT * FROM orders".data =
      "SELECT * FROM mysrv.sales.orders".data := by
  constructor
  · intro conn db ref h0 hne
    by_cases hl : conn = "local".data
    · simp [newTableRef, h0, hl]
    · simp only [newTableRef, h0, if_pos rfl]
      simp [hl, hne, List.append_assoc]
  · rfl

theorem c5_witness :
    newTableRef "mysrv".data "sales".data "orders".data =
      (if ("mysrv".data : List Char) = "local".data then "orders".data
       else "mysrv".data ++ '.' :: "sales".data ++ '.' :: "orders".data) :=
  c5_theorem.1 "mysrv".data "sales".data "orders".data (by decide) (by decide)

/-! ### Claim C6 -/

theorem isPrefixOf_dotted (conn a b : List Char)
    (ha : '.' ∉ a) (hb : '.' ∉ b) :
    (conn ++ ['.']).isPrefixOf (a ++ '.' :: b) = true ↔ conn = a := by
  rw [List.isPrefixOf_iff_prefix]
  constructor
  · rintro ⟨t, ht⟩
    by_cases hc : '.' ∈ conn
    · exfalso
      have := congrArg (fun l => l.count '.') ht
      simp only [List.count_append, List.count_cons] at this
      have h1 : a.count '.' = 0 := List.count_eq_zero.mpr ha
      have h2 : b.count '.' = 0 := List.count_eq_zero.mpr hb
      have h3 : 1 ≤ conn.count '.' := List.one_le_count_iff.mpr hc
      simp [h1, h2, List.count_singleton] at this
      omega
    · have := congrArg (fun l => l.takeWhile (fun c => c ≠ '.')) ht
      simp only [List.append_assoc] at this
      rw [takeWhile_all_append _ conn (['.'] ++ t)
          (fun c hcc => by simp [ne_eq]; rintro rfl; exact hc hcc),
        takeWhile_all_append _ a ('.' :: b)
          (fun c hcc => by simp [ne_eq]; rintro rfl; exact ha hcc)] at this
      have h4 : conn = a := by simpa using this
      exact h4
  · rintro rfl
    exact ⟨b, by simp⟩

/-- Claim C6: a matched 1-dot reference `A.B` is left unchanged when `A` is
the default `local`; it is rewritten to `active_connection.A.B` exactly when
the active connection is non-default and `A` differs from it; in all other
cases it is unchanged.  Moreover `SELECT * FROM local.customers` is never
rewritten, whatever the session context. -/
theorem c6_theorem :
    (∀ conn db a b : List Char, '.' ∉ a → '.' ∉ b →
        newTableRef conn db (a ++ '.' :: b) =
          if a = "local".data then a ++ '.' :: b
          else if conn ≠ "local".data ∧ a ≠ conn then conn ++ '.' :: a ++ '.' :: b
          else a ++ '.' :: b) ∧
    (∀ conn db : List Char,
        applyQualify conn db "SELECT * FROM local.customers".data =
          "SELECT * FROM local.customers".data) := by
  constructor
  · intro conn db a b ha hb
    have hcount : (a ++ '.' :: b).count '.' = 1 := by
      simp [List.count_append, List.count_cons,
        List.count_eq_zero.mpr ha, List.count_eq_zero.mpr hb]
    have htake : (a ++ '.' :: b).takeWhile (fun c => c ≠ '.') = a := by
      rw [takeWhile_all_append _ a ('.' :: b)
          (fun c hcc => by simp [ne_eq]; rintro rfl; exact ha hcc)]
      simp
    unfold newTableRef
    rw [if_neg (by simp [hcount]), if_pos (by simp [hcount]), htake]
    by_cases hl : a = "local".data
    · rw [if_pos hl, if_pos hl]
    · rw [if_neg hl, if_neg hl]
      by_cases hc : conn = "local".data
      · rw [if_neg (by simp [hc]), if_neg (by simp [hc])]
      · rw [if_pos hc]
        by_cases hac : a = conn
        · have hpre : (conn ++ ['.']).isPrefixOf (a ++ '.' :: b) = true :=
            (isPrefixOf_dotted conn a b ha hb).mpr hac.symm
          rw [if_neg (by simp [hpre]), if_neg (by simp [hac])]
        · have hpre : ¬ (conn ++ ['.']).isPrefixOf (a ++ '.' :: b) = true := by
            rw [isPrefixOf_dotted conn a b ha hb]
            exact fun h => hac h.symm
          rw [if_pos (by simpa using hpre), if_pos ⟨hc, hac⟩]
          simp
  · intro conn db
    rfl

theorem c6_witness :
    newTableRef "mysrv".data "sales".data ("erp".data ++ '.' :: "t2".data) =
      (if ("erp".data : List Char) = "local".data then "erp".data ++ '.' :: "t2".data
       else if ("mysrv".data : List Char) ≠ "local".data ∧ ("erp".data : List Char) ≠ "mysrv".data
       then "mysrv".data ++ '.' :: "erp".data ++ '.' :: "t2".data
       else "erp".data ++ '.' :: "t2".data) :=
  c6_theorem.1 "mysrv".data "sales".data "erp".data "t2".data (by decide) (by decide)

/-! ### Claim C10 -/

/-- Claim C10: the match pattern requires at least two identifier characters
after the keyword, so a single-character table reference is never rewritten;
`SELECT * FROM t` passes through unchanged for every session context. -/
theorem c10_theorem :
    (∀ conn db : List Char,
        preprocessModel conn db "SELECT * FROM t".data =
          .ok ("SELECT * FROM t".data)) ∧
    (∀ rw : List Char → List Char,
        passKw rw ("FROM".data) ("FROM t".data) = "FROM t".data) := by
  constructor
  · intro conn db
    unfold preprocessModel
    by_cases h : db ≠ [] ∧ db ≠ "local".data
    · simp only [if_neg (by decide : ¬ ("USE ".data.isPrefixOf
        (upperL (trimL "SELECT * FROM t".data)) = true)), if_pos h]
      rfl
    · simp only [if_neg (by decide : ¬ ("USE ".data.isPrefixOf
        (upperL (trimL "SELECT * FROM t".data)) = true)), if_neg h]
      rfl
  · intro rw
    rfl

/-! ### Claim C1 -/

/-- Counterexample to claim C1: after trimming, `USE\tsales` has the keyword
`USE` followed by whitespace (a tab), yet the pipeline does not consume it:
it is forwarded verbatim to the execution stage and the schema is unchanged. -/
theorem c1_counterexample :
    specIsUseStmt ("USE\tsales".data) = true ∧
    executeQuery ⟨"local".data, "local".data⟩ ("USE\tsales".data) =
      (⟨"local".data, "local".data⟩, .execute ("USE\tsales".data)) := by
  exact ⟨by decide, rfl⟩

/-- Claim C1 (amended): every split statement whose case-insensitive prefix is
the keyword `USE` followed by a space character is consumed by the pipeline:
it updates the active schema (in statement order, so the last one wins) and is
never forwarded to the execution engine; when no statements remain after
removing them, the run stops reporting only the context change (or nothing at
all when the buffer had no statements). -/
theorem c1_theorem (st : Session) (buffer : List Char) :
    ((splitStatements (trimL buffer)).filter (fun s => ! isUseStmt s) = [] →
      (executeQuery st buffer).2 =
        if splitStatements (trimL buffer) = [] then GuiOutcome.noQuery
        else GuiOutcome.contextOnly) ∧
    (∀ q, (executeQuery st buffer).2 = .execute q →
      q = joinSemi ((splitStatements (trimL buffer)).filter (fun s => ! isUseStmt s)) ∧
      ∀ s ∈ (splitStatements (trimL buffer)).filter (fun s => ! isUseStmt s),
        isUseStmt s = false) ∧
    (executeQuery st buffer).1.db =
      (splitStatements (trimL buffer)).foldl
        (fun d s => if isUseStmt s then trimL (s.drop 4) else d) st.db := by
  by_cases h : splitStatements (trimL buffer) = []
  · refine ⟨fun _ => ?_, fun q hq => ?_, ?_⟩
    · simp only [executeQuery, if_pos h, if_pos h]
    · exfalso
      simp only [executeQuery, if_pos h] at hq
      cases hq
    · simp only [executeQuery, if_pos h, h, List.foldl_nil]
      simp
  · have hrest := processUse_rest st (splitStatements (trimL buffer))
    by_cases h2 : (processUse st (splitStatements (trimL buffer))).2 = []
    · refine ⟨fun _ => ?_, fun q hq => ?_, ?_⟩
      · simp only [executeQuery, if_neg h, if_pos h2, if_neg h]
      · exfalso
        simp only [executeQuery, if_neg h, if_pos h2] at hq
        cases hq
      · simp only [executeQuery, if_neg h, if_pos h2]
        exact processUse_db st _
    · refine ⟨fun hfilter => ?_, fun q hq => ?_, ?_⟩
      · exfalso
        rw [hrest, hfilter] at h2
        exact h2 rfl
      · simp only [executeQuery, if_neg h, if_neg h2] at hq
        cases hq
        constructor
        · rw [hrest]
        · intro s hs
          rw [List.mem_filter] at hs
          simpa using hs.2
      · simp only [executeQuery, if_neg h, if_neg h2]
        exact processUse_db st _

theorem c1_witness :
    (executeQuery ⟨"local".data, "local".data⟩ ("USE sales".data)).2 =
      GuiOutcome.contextOnly ∧
    (executeQuery ⟨"local".data, "local".data⟩ ("USE sales".data)).1.db =
      "sales".data := by
  have h := c1_theorem ⟨"local".data, "local".data⟩ ("USE sales".data)
  constructor
  · have h1 := h.1 (by decide)
    rw [h1, if_neg (by decide)]
  · rw [h.2.2]
    decide

/-! ### Claim C3 -/

/-- Counterexample to claim C3: `SELECT 1` with `page_size = 0` takes the
non-paginated branch, which reports `total_count = 1` (the row count), not
the sentinel `-1` the claim demands, and the size formula fails as well. -/
theorem c3_counterexample :
    workerRun exC3 ("SELECT 1".data) "local".data "local".data 0 0 =
      .ok ⟨[[5]], ["msg".data], 1⟩ ∧
    ¬ ((1 : Int) = -1 ∨
        (([[(5 : Int)]] : List Row).length : Int) = min 0 (max 0 (1 - 0 * 0))) := by
  exact ⟨rfl, by decide⟩

/-- Claim C3 (amended): every successful `PageResult` either carries the
sentinel `total_count = -1` (produced by the count-failure fallback), or was
produced by the non-paginated branch (`page_size ≤ 0` or not a read query)
and reports `total_count = rows.len()`, or — when the engine obeys the
COUNT/LIMIT/OFFSET size law — satisfies
`rows.len() = min(page_size, max(0, total_count - page_number*page_size))`. -/
theorem c3_theorem (ex : Engine) (q conn db : List Char) (ps pn : Int)
    (res : PageResult) (hlaw : PagLaw ex)
    (h : workerRun ex q conn db ps pn = .ok res) :
    res.total = -1 ∨
    (∃ pq, preprocessModel conn db q = .ok pq ∧
      ¬ (isReadQuery pq = true ∧ 0 < ps) ∧
      res.total = (res.rows.length : Int)) ∨
    (res.rows.length : Int) = min ps (max 0 (res.total - pn * ps)) := by
  cases hpre : preprocessModel conn db q with
  | ctxSwitch d => simp only [workerRun, hpre] at h; cases h
  | ok pq =>
    simp only [workerRun, hpre] at h
    by_cases hcond : isReadQuery pq = true ∧ 0 < ps
    · rw [if_pos hcond] at h
      cases hcex : ex (mkCountQuery (cleanQuery pq)) with
      | error e0 =>
        simp only [hcex] at h
        cases hex : ex pq with
        | error e => simp only [hex] at h; cases h
        | ok r =>
          simp only [hex] at h
          cases h
          left
          rfl
      | ok r0 =>
        simp only [hcex] at h
        cases hf : fetchOneFirst r0.1 with
        | none =>
          simp only [hf] at h
          cases hex : ex pq with
          | error e => simp only [hex] at h; cases h
          | ok r =>
            simp only [hex] at h
            cases h
            left
            rfl
        | some t =>
          simp only [hf] at h
          cases hex : ex (mkSliceQuery (cleanQuery pq) ps pn) with
          | error e => simp only [hex] at h; cases h
          | ok r =>
            simp only [hex] at h
            cases h
            right; right
            refine hlaw (cleanQuery pq) ps pn t r.1 r.2 ?_ (by rw [hex])
            rw [hcex]
            exact hf
    · rw [if_neg hcond] at h
      cases hex : ex pq with
      | error e => simp only [hex] at h; cases h
      | ok r =>
        simp only [hex] at h
        cases h
        right; left
        refine ⟨pq, rfl, hcond, ?_⟩
        by_cases hnil : r.1 = []
        · simp [hnil]
        · simp [hnil]

theorem c3_witness :
    (⟨[[5]], ["msg".data], 1⟩ : PageResult).total = -1 ∨
    (∃ pq, preprocessModel "local".data "local".data ("SELECT 1".data) = .ok pq ∧
      ¬ (isReadQuery pq = true ∧ (0 : Int) < 0) ∧
      (⟨[[5]], ["msg".data], 1⟩ : PageResult).total =
        ((⟨[[5]], ["msg".data], 1⟩ : PageResult).rows.length : Int)) ∨
    ((⟨[[5]], ["msg".data], 1⟩ : PageResult).rows.length : Int) =
      min 0 (max 0 ((⟨[[5]], ["msg".data], 1⟩ : PageResult).total - 0 * 0)) := by
  have hlaw : PagLaw exC3 := by
    intro inner ps pn t rows cols hcount _
    exfalso
    have hne : mkCountQuery inner ≠ "SELECT 1".data := by
      intro heq
      have hlen := congrArg List.length heq
      have h1 : ("SELECT COUNT(*) FROM (".data).length = 22 := by decide
      have h2 : (") AS count_subquery".data).length = 19 := by decide
      have h3 : ("SELECT 1".data).length = 8 := by decide
      simp only [mkCountQuery, List.length_append, h1, h2, h3] at hlen
      omega
    unfold exC3 at hcount
    rw [if_neg hne] at hcount
    simp at hcount
  exact c3_theorem exC3 ("SELECT 1".data) "local".data "local".data 0 0
    ⟨[[5]], ["msg".data], 1⟩ hlaw rfl

/-! ### Claim C4 -/

/-- Claim C4: for a read query with positive page size, when the count query
fails the pipeline falls back to executing the original unpaginated statement
and reports `total_count = -1` with the full result set; the count failure is
not surfaced. -/
theorem c4_theorem (ex : Engine) (q conn db pq : List Char) (ps pn : Int)
    (rows : List Row) (cols : List (List Char)) (e0 : List Char)
    (hpre : preprocessModel conn db q = .ok pq)
    (hread : isReadQuery pq = true) (hps : 0 < ps)
    (hcount : ex (mkCountQuery (cleanQuery pq)) = .error e0)
    (hfull : ex pq = .ok (rows, cols)) :
    workerRun ex q conn db ps pn = .ok ⟨rows, cols, -1⟩ := by
  simp only [workerRun, hpre]
  rw [if_pos (show isReadQuery pq = true ∧ 0 < ps from ⟨hread, hps⟩)]
  simp only [hcount, hfull]

theorem c4_witness :
    workerRun exC4 ("SELECT * FROM v".data) "local".data "local".data 1000 0 =
      .ok ⟨[[1], [2]], ["a".data], -1⟩ :=
  c4_theorem exC4 ("SELECT * FROM v".data) "local".data "local".data
    ("SELECT * FROM v".data) 1000 0 [[1], [2]] ["a".data] ("boom".data)
    rfl rfl (by decide) rfl rfl

/-! ### Claim C7 -/

/-- Counterexample to claim C7: `SELECT * FROM delimited` contains no `LIMIT`
token, so per the claim the planner should append `LIMIT/OFFSET` directly;
the code tests for a substring, finds `LIMIT` inside `delimited`, and wraps
the query instead. -/
theorem c7_counterexample :
    containsLIMITToken ("SELECT * FROM delimited".data) = false ∧
    mkSliceQuery ("SELECT * FROM delimited".data) 100 0 =
      ("SELECT * FROM (SELECT * FROM delimited) AS paginated_subquery LIMIT 100 OFFSET 0".data) ∧
    mkSliceQuery ("SELECT * FROM delimited".data) 100 0 ≠
      ("SELECT * FROM delimited".data ++ " LIMIT ".data ++ intChars 100 ++
        " OFFSET ".data ++ intChars 0) := by
  refine ⟨by decide, by decide, by decide⟩

/-- Claim C7 (amended): for a read query with positive page size, the slice
query wraps the statement in a subquery whenever the cleaned statement
contains `LIMIT` as a case-insensitive **substring** (so an author's inner
`LIMIT` is never dropped), and appends ` LIMIT page_size OFFSET
page_number*page_size` directly otherwise; the engine is consulted at exactly
that query. -/
theorem c7_theorem (ex : Engine) (q conn db pq : List Char) (ps pn : Int)
    (t : Int) (rows : List Row) (cols : List (List Char))
    (hpre : preprocessModel conn db q = .ok pq)
    (hread : isReadQuery pq = true) (hps : 0 < ps)
    (hcount : (match ex (mkCountQuery (cleanQuery pq)) with
        | .error _ => none
        | .ok r => fetchOneFirst r.1) = some t)
    (hslice : ex (if containsLIMIT (cleanQuery pq) = true then
          "SELECT * FROM (".data ++ cleanQuery pq ++
            ") AS paginated_subquery LIMIT ".data ++ intChars ps ++
            " OFFSET ".data ++ intChars (pn * ps)
        else cleanQuery pq ++ " LIMIT ".data ++ intChars ps ++
          " OFFSET ".data ++ intChars (pn * ps)) = .ok (rows, cols)) :
    workerRun ex q conn db ps pn = .ok ⟨rows, cols, t⟩ := by
  have hs : ex (mkSliceQuery (cleanQuery pq) ps pn) = .ok (rows, cols) := hslice
  simp only [workerRun, hpre]
  rw [if_pos (show isReadQuery pq = true ∧ 0 < ps from ⟨hread, hps⟩)]
  simp only [hcount, hs]

theorem c7_witness :
    workerRun exC7 ("SELECT * FROM t LIMIT 5".data) "local".data "local".data
      100 0 = .ok ⟨[[1]], ["x".data], 5⟩ :=
  c7_theorem exC7 ("SELECT * FROM t LIMIT 5".data) "local".data "local".data
    ("SELECT * FROM t LIMIT 5".data) 100 0 5 [[1]] ["x".data]
    rfl rfl (by decide) (by decide) rfl

/-! ### Character-class lemmas -/

theorem wsChar_cases {c : Char} (h : isWsChar c = true) :
    c = ' ' ∨ c = '\t' ∨ c = '\n' ∨ c = '\r' ∨ c = Char.ofNat 11 ∨
      c = Char.ofNat 12 := by
  simpa [isWsChar, or_assoc] using h

theorem sfxChar_cases {d : Char} (h : isSfxChar d = true) :
    isWsChar d = true ∨ d = ';' ∨ d = ',' ∨ d = ')' := by
  simpa [isSfxChar, or_assoc] using h

theorem ws_not_word {c : Char} (h : isWsChar c = true) : isWordChar c = false := by
  rcases wsChar_cases h with h | h | h | h | h | h <;> subst h <;> decide

theorem ws_not_idStart {c : Char} (h : isWsChar c = true) :
    isIdStart c = false := by
  rcases wsChar_cases h with h | h | h | h | h | h <;> subst h <;> decide

theorem ws_not_idChar {c : Char} (h : isWsChar c = true) :
    isIdChar c = false := by
  rcases wsChar_cases h with h | h | h | h | h | h <;> subst h <;> decide

theorem sfx_not_idChar {d : Char} (h : isSfxChar d = true) :
    isIdChar d = false := by
  rcases sfxChar_cases h with h | h | h | h
  · exact ws_not_idChar h
  · subst h; decide
  · subst h; decide
  · subst h; decide

theorem sfx_not_word {d : Char} (h : isSfxChar d = true) :
    isWordChar d = false := by
  have := sfx_not_idChar h
  simp only [isIdChar, Bool.or_eq_false_iff] at this
  exact this.1

theorem sfx_not_idStart {d : Char} (h : isSfxChar d = true) :
    isIdStart d = false := by
  rcases sfxChar_cases h with h | h | h | h
  · exact ws_not_idStart h
  · subst h; decide
  · subst h; decide
  · subst h; decide

theorem idStart_idChar {c : Char} (h : isIdStart c = true) : isIdChar c = true := by
  simp only [isIdStart, Bool.or_eq_true] at h
  rcases h with h | h
  · simp [isIdChar, isWordChar, h]
  · simp [isIdChar, isWordChar, h]

theorem word_idChar {c : Char} (h : isWordChar c = true) : isIdChar c = true := by
  simp [isIdChar, h]

theorem idStart_not_ws {c : Char} (h : isIdStart c = true) : isWsChar c = false := by
  by_cases hw : isWsChar c = true
  · rw [ws_not_idStart hw] at h; cases h
  · simpa using hw

theorem word_not_ws {c : Char} (h : isWordChar c = true) : isWsChar c = false := by
  by_cases hw : isWsChar c = true
  · rw [ws_not_word hw] at h; cases h
  · simpa using hw

theorem idChar_not_ws {c : Char} (h : isIdChar c = true) : isWsChar c = false := by
  by_cases hw : isWsChar c = true
  · rw [ws_not_idChar hw] at h; cases h
  · simpa using hw

theorem dot_not_word : isWordChar '.' = false := by decide

theorem idChar_dot_or_word {c : Char} (h : isIdChar c = true) :
    c = '.' ∨ isWordChar c = true := by
  simp only [isIdChar, Bool.or_eq_true, decide_eq_true_eq] at h
  tauto

/-! ### `Char.toUpper` lemmas -/

theorem uint32_le_of_nat_le {n : UInt32} {m : Nat} (hm : m < UInt32.size)
    (h : m ≤ n.toNat) : UInt32.ofNat m ≤ n := by
  by_contra hc
  have := UInt32.toNat_lt_of_lt hm (UInt32.not_le.mp hc)
  omega

theorem uint32_le_of_nat_le' {n : UInt32} {m : Nat} (hm : m < UInt32.size)
    (h : n.toNat ≤ m) : n ≤ UInt32.ofNat m := by
  by_contra hc
  have := UInt32.lt_toNat_of_lt hm (UInt32.not_le.mp hc)
  omega

theorem toUpper_of_not_lower {c : Char} (h : c.isLower = false) :
    c.toUpper = c := by
  unfold Char.toUpper
  rw [if_neg]
  rintro ⟨h1, h2⟩
  have hl : c.isLower = true := by
    simp only [Char.isLower, Bool.and_eq_true, decide_eq_true_eq]
    exact ⟨uint32_le_of_nat_le (by decide) h1, uint32_le_of_nat_le' (by decide) h2⟩
  rw [hl] at h
  cases h

theorem lower_word {c : Char} (h : c.isLower = true) : isWordChar c = true := by
  simp [isWordChar, Char.isAlpha, h]

theorem toUpper_of_not_word {c : Char} (h : isWordChar c = false) :
    c.toUpper = c := by
  apply toUpper_of_not_lower
  by_cases hl : c.isLower = true
  · rw [lower_word hl] at h; cases h
  · simpa using hl

theorem word_of_toUpper {c k : Char} (hk : isWordChar k = true)
    (h : c.toUpper = k) : isWordChar c = true := by
  by_cases hw : isWordChar c = true
  · exact hw
  · rw [toUpper_of_not_word (by simpa using hw)] at h
    rw [h]
    exact hk

theorem lower_idStart {c : Char} (h : c.isLower = true) : isIdStart c = true := by
  simp [isIdStart, Char.isAlpha, h]

theorem idStart_of_toUpper {c k : Char} (hk : isIdStart k = true)
    (h : c.toUpper = k) : isIdStart c = true := by
  by_cases hl : c.isLower = true
  · exact lower_idStart hl
  · rw [toUpper_of_not_lower (by simpa using hl)] at h
    rw [h]
    exact hk

/-! ### List helper lemmas -/

theorem dropWhile_all_append (p : Char → Bool) (l t : List Char)
    (h : ∀ c ∈ l, p c = true) :
    (l ++ t).dropWhile p = t.dropWhile p := by
  induction l with
  | nil => rfl
  | cons c cs ih =>
    simp only [List.cons_append, List.dropWhile_cons, h c (by simp)]
    exact ih (fun d hd => h d (by simp [hd]))

theorem takeWhile_head_neg (p : Char → Bool) (c : Char) (l : List Char)
    (h : p c = false) : (c :: l).takeWhile p = [] := by
  simp [List.takeWhile_cons, h]

theorem dropWhile_head_neg (p : Char → Bool) (c : Char) (l : List Char)
    (h : p c = false) : (c :: l).dropWhile p = c :: l := by
  simp [List.dropWhile_cons, h]

/-! ### `refShape` and `matchKw` lemmas -/

theorem refShape_iff {l : List Char} :
    refShape l = true ↔
      ∃ c cs, l = c :: cs ∧ isIdStart c = true ∧ cs ≠ [] ∧ cs.all isIdChar = true := by
  cases l with
  | nil => simp [refShape]
  | cons c cs =>
    cases cs with
    | nil => simp [refShape]
    | cons c2 cs2 =>
      constructor
      · intro h
        simp only [refShape, Bool.and_eq_true] at h
        exact ⟨c, c2 :: cs2, rfl, h.1, by simp, h.2⟩
      · rintro ⟨c', cs', heq, h1, h2, h3⟩
        cases heq
        simp [refShape, h1, h3]

theorem refShape_len {l : List Char} (h : refShape l = true) : 2 ≤ l.length := by
  obtain ⟨c, cs, rfl, _, h2, _⟩ := refShape_iff.mp h
  cases cs with
  | nil => exact absurd rfl h2
  | cons _ _ => simp

theorem matchKw_append {kw t r : List Char} (h : t.map Char.toUpper = kw) :
    matchKw kw (t ++ r) = some r := by
  induction t generalizing kw with
  | nil => subst h; rfl
  | cons c cs ih =>
    subst h
    simp only [List.map_cons, List.cons_append, matchKw, if_pos rfl]
    exact ih rfl

theorem matchKw_inv {kw s r : List Char} (h : matchKw kw s = some r) :
    ∃ t, s = t ++ r ∧ t.map Char.toUpper = kw := by
  induction kw generalizing s with
  | nil =>
    refine ⟨[], ?_, rfl⟩
    simpa [matchKw] using Option.some.inj (by simpa [matchKw] using h)
  | cons k ks ih =>
    cases s with
    | nil => simp [matchKw] at h
    | cons c cs =>
      simp only [matchKw] at h
      by_cases hc : c.toUpper = k
      · rw [if_pos hc] at h
        obtain ⟨t, ht, hm⟩ := ih h
        exact ⟨c :: t, by simp [ht], by simp [hm, hc]⟩
      · rw [if_neg hc] at h; cases h

theorem all_takeWhile (p : Char → Bool) (l : List Char) :
    (l.takeWhile p).all p = true := by
  rw [List.all_eq_true]
  exact fun x hx => List.mem_takeWhile_imp hx

theorem takeWhile_all (p : Char → Bool) (l : List Char)
    (h : ∀ c ∈ l, p c = true) : l.takeWhile p = l := by
  have := takeWhile_all_append p l [] h
  simpa using this

theorem dropWhile_all (p : Char → Bool) (l : List Char)
    (h : ∀ c ∈ l, p c = true) : l.dropWhile p = [] := by
  have := dropWhile_all_append p l [] h
  simpa using this

/-! ### `tryMatch` inversion and composition -/

theorem tryMatch_inv {kw s : List Char} {m : MatchRes} (h : tryMatch kw s = some m) :
    ∃ kwtxt ws, s = kwtxt ++ (ws ++ (m.ref ++ (m.sfx ++ m.rest))) ∧
      kwtxt.map Char.toUpper = kw ∧ ws ≠ [] ∧ ws.all isWsChar = true ∧
      refShape m.ref = true ∧ sfxOK m.sfx m.rest := by
  unfold tryMatch at h
  cases hm : matchKw kw s with
  | none => rw [hm] at h; cases h
  | some r1 =>
    simp only [hm] at h
    obtain ⟨kwtxt, hs, hmap⟩ := matchKw_inv hm
    by_cases hws : r1.takeWhile isWsChar = []
    · rw [if_pos hws] at h; cases h
    · rw [if_neg hws] at h
      cases hr2 : r1.dropWhile isWsChar with
      | nil => rw [hr2] at h; cases h
      | cons c cs =>
        simp only [hr2] at h
        by_cases hid : isIdStart c = true
        · rw [if_pos hid] at h
          by_cases hrun : cs.takeWhile isIdChar = []
          · rw [if_pos hrun] at h; cases h
          · rw [if_neg hrun] at h
            have hr1 : r1 = r1.takeWhile isWsChar ++ (c :: cs) := by
              rw [← hr2, List.takeWhile_append_dropWhile]
            have hcs : cs = cs.takeWhile isIdChar ++ cs.dropWhile isIdChar :=
              (List.takeWhile_append_dropWhile isIdChar cs).symm
            have hshape : refShape (c :: cs.takeWhile isIdChar) = true := by
              rw [refShape_iff]
              exact ⟨c, cs.takeWhile isIdChar, rfl, hid, hrun, all_takeWhile _ _⟩
            cases hr3 : cs.dropWhile isIdChar with
            | nil =>
              simp only [hr3] at h
              cases h
              refine ⟨kwtxt, r1.takeWhile isWsChar, ?_, hmap, hws,
                all_takeWhile _ _, hshape, Or.inl ⟨rfl, rfl⟩⟩
              rw [hr3, List.append_nil] at hcs
              rw [← hcs]
              simp only [List.append_nil]
              rw [hs, ← hr1]
            | cons d ds =>
              simp only [hr3] at h
              by_cases hd : isSfxChar d = true
              · rw [if_pos hd] at h
                cases h
                refine ⟨kwtxt, r1.takeWhile isWsChar, ?_, hmap, hws,
                  all_takeWhile _ _, hshape, Or.inr ⟨d, rfl, hd⟩⟩
                rw [hr3] at hcs
                simp only [List.cons_append, List.nil_append]
                rw [← hcs]
                rw [hs, ← hr1]
              · rw [if_neg hd] at h; cases h
        · rw [if_neg hid] at h; cases h

theorem tryMatch_comp {kw kwtxt ws ref sfx rest : List Char}
    (hkw : kwtxt.map Char.toUpper = kw) (hws : ws ≠ [])
    (hwsall : ws.all isWsChar = true) (href : refShape ref = true)
    (hsfx : sfxOK sfx rest) :
    tryMatch kw (kwtxt ++ (ws ++ (ref ++ (sfx ++ rest)))) = some ⟨ref, sfx, rest⟩ := by
  obtain ⟨c, cs, rfl, hc, hcsne, hcs⟩ := refShape_iff.mp href
  have hwsall' : ∀ x ∈ ws, isWsChar x = true := List.all_eq_true.mp hwsall
  have hcs' : ∀ x ∈ cs, isIdChar x = true := List.all_eq_true.mp hcs
  rcases hsfx with ⟨h1, h2⟩ | ⟨d, h1, h2⟩
  · subst h1; subst h2
    simp only [List.append_nil]
    have hws1 : (ws ++ (c :: cs)).takeWhile isWsChar = ws := by
      rw [takeWhile_all_append _ ws _ hwsall',
        takeWhile_head_neg _ _ _ (idStart_not_ws hc), List.append_nil]
    have hws2 : (ws ++ (c :: cs)).dropWhile isWsChar = c :: cs := by
      rw [dropWhile_all_append _ ws _ hwsall',
        dropWhile_head_neg _ _ _ (idStart_not_ws hc)]
    simp only [tryMatch, matchKw_append hkw, hws1, hws2, if_neg hws, if_pos hc,
      takeWhile_all _ cs hcs', dropWhile_all _ cs hcs', if_neg hcsne]
  · subst h1
    simp only [List.cons_append, List.nil_append]
    have hws1 : (ws ++ (c :: (cs ++ d :: rest))).takeWhile isWsChar = ws := by
      rw [takeWhile_all_append _ ws _ hwsall',
        takeWhile_head_neg _ _ _ (idStart_not_ws hc), List.append_nil]
    have hws2 : (ws ++ (c :: (cs ++ d :: rest))).dropWhile isWsChar =
        c :: (cs ++ d :: rest) := by
      rw [dropWhile_all_append _ ws _ hwsall',
        dropWhile_head_neg _ _ _ (idStart_not_ws hc)]
    have hrun : (cs ++ d :: rest).takeWhile isIdChar = cs := by
      rw [takeWhile_all_append _ cs _ hcs',
        takeWhile_head_neg _ _ _ (sfx_not_idChar h2), List.append_nil]
    have hdr : (cs ++ d :: rest).dropWhile isIdChar = d :: rest := by
      rw [dropWhile_all_append _ cs _ hcs',
        dropWhile_head_neg _ _ _ (sfx_not_idChar h2)]
    simp only [tryMatch, matchKw_append hkw, hws1, hws2, if_neg hws, if_pos hc,
      hrun, hdr, if_neg hcsne, if_pos h2]

theorem tryMatch_rest_lt {kw s : List Char} {m : MatchRes}
    (h : tryMatch kw s = some m) : m.rest.length < s.length := by
  obtain ⟨kwtxt, ws, hs, _, hws, _, href, _⟩ := tryMatch_inv h
  have h1 : 0 < ws.length := List.length_pos.mpr hws
  have h2 : 2 ≤ m.ref.length := refShape_len href
  have h3 := congrArg List.length hs
  simp [List.length_append] at h3
  omega

theorem tryMatch_head_fail {k c : Char} {ks cs : List Char}
    (h : ¬ c.toUpper = k) : tryMatch (k :: ks) (c :: cs) = none := by
  simp only [tryMatch, matchKw, if_neg h]

theorem tryMatch_nonIdStart_fail {kw : List Char} (hg : kwGood kw) {c : Char}
    {cs : List Char} (hc : isIdStart c = false) : tryMatch kw (c :: cs) = none := by
  obtain ⟨hlen, hall, _, _⟩ := hg
  cases kw with
  | nil => simp at hlen
  | cons k ks =>
    by_cases h : c.toUpper = k
    · have hk : isIdStart k = true :=
        List.all_eq_true.mp hall k (List.mem_cons_self _ _)
      rw [idStart_of_toUpper hk h] at hc; cases hc
    · exact tryMatch_head_fail h

theorem tryMatch_token_dot_fail {kw w z : List Char} (hg : kwGood kw)
    (hw : ∀ x ∈ w, isWordChar x = true) :
    tryMatch kw (w ++ '.' :: z) = none := by
  cases hm : matchKw kw (w ++ '.' :: z) with
  | none => simp only [tryMatch, hm]
  | some r1 =>
    obtain ⟨t, ht, hmap⟩ := matchKw_inv hm
    have hws0 : r1.takeWhile isWsChar = [] := by
      rcases List.append_eq_append_iff.mp ht with ⟨a2, hta, hra⟩ | ⟨c2, hwc, hrc⟩
      · cases a2 with
        | nil =>
          have hr : r1 = '.' :: z := by simpa using hra.symm
          rw [hr]
          exact takeWhile_head_neg _ _ _ (by decide)
        | cons x a3 =>
          rw [List.cons_append] at hra
          injection hra with h1 h2
          exfalso
          have hmem : '.' ∈ kw := by
            rw [← hmap, hta, ← h1, List.map_append, List.map_cons]
            have hdot : Char.toUpper '.' = '.' := by decide
            rw [hdot]
            exact List.mem_append_right _ (List.mem_cons_self _ _)
          have := List.all_eq_true.mp hg.2.2.1 '.' hmem
          exact absurd this (by decide)
      · cases c2 with
        | nil =>
          have hr : r1 = '.' :: z := by simpa using hrc
          rw [hr]
          exact takeWhile_head_neg _ _ _ (by decide)
        | cons x c3 =>
          have hxw : x ∈ w := by
            rw [hwc]; exact List.mem_append_right _ (List.mem_cons_self _ _)
          rw [hrc, List.cons_append]
          exact takeWhile_head_neg _ _ _ (word_not_ws (hw x hxw))
    simp only [tryMatch, hm]
    rw [if_pos hws0]

/-! ### `scanAux` fuel irrelevance and `scanF` step equations -/

theorem scanAux_eq (rw : List Char → List Char) (kw : List Char) :
    ∀ f1 f2 p s, s.length ≤ f1 → s.length ≤ f2 →
      scanAux rw kw f1 p s = scanAux rw kw f2 p s := by
  intro f1
  induction f1 with
  | zero =>
    intro f2 p s h1 h2
    have hz : s = [] := List.eq_nil_of_length_eq_zero (Nat.le_zero.mp h1)
    subst hz
    cases f2 <;> rfl
  | succ f ih =>
    intro f2 p s h1 h2
    cases s with
    | nil => cases f2 <;> rfl
    | cons c cs =>
      cases f2 with
      | zero => simp at h2
      | succ f2a =>
        simp only [scanAux]
        cases p with
        | true =>
          rw [if_pos rfl, if_pos rfl]
          have hc1 : cs.length ≤ f := by simp at h1; omega
          have hc2 : cs.length ≤ f2a := by simp at h2; omega
          rw [ih f2a (isWordChar c) cs hc1 hc2]
        | false =>
          rw [if_neg Bool.false_ne_true, if_neg Bool.false_ne_true]
          cases hm : tryMatch kw (c :: cs) with
          | none =>
            simp only [hm]
            have hc1 : cs.length ≤ f := by simp at h1; omega
            have hc2 : cs.length ≤ f2a := by simp at h2; omega
            rw [ih f2a (isWordChar c) cs hc1 hc2]
          | some m =>
            simp only [hm]
            have hr := tryMatch_rest_lt hm
            simp at hr h1 h2
            rw [ih f2a false m.rest (by omega) (by omega)]

theorem scanAux_scanF (rw : List Char → List Char) (kw : List Char)
    (f : Nat) (p : Bool) (s : List Char) (h : s.length ≤ f) :
    scanAux rw kw f p s = scanF rw kw p s :=
  scanAux_eq rw kw f s.length p s h (Nat.le_refl _)

theorem scanF_nil (rw : List Char → List Char) (kw : List Char) (p : Bool) :
    scanF rw kw p [] = [] := rfl

theorem scanF_skip (rw : List Char → List Char) (kw : List Char) (c : Char)
    (cs : List Char) :
    scanF rw kw true (c :: cs) = c :: scanF rw kw (isWordChar c) cs := by
  unfold scanF
  simp only [List.length_cons, scanAux, if_pos rfl, eq_self_iff_true, if_true]

theorem scanF_nomatch (rw : List Char → List Char) (kw : List Char) (c : Char)
    (cs : List Char) (h : tryMatch kw (c :: cs) = none) :
    scanF rw kw false (c :: cs) = c :: scanF rw kw (isWordChar c) cs := by
  unfold scanF
  simp only [List.length_cons, scanAux, if_neg Bool.false_ne_true, h]

theorem scanF_match (rw : List Char → List Char) (kw : List Char) (c : Char)
    (cs : List Char) (m : MatchRes) (h : tryMatch kw (c :: cs) = some m) :
    scanF rw kw false (c :: cs) =
      kw ++ ' ' :: rw m.ref ++ m.sfx ++ scanF rw kw false m.rest := by
  have hle : m.rest.length ≤ cs.length := by
    have := tryMatch_rest_lt h
    simp at this
    omega
  unfold scanF
  simp only [List.length_cons, scanAux, if_neg Bool.false_ne_true, h]
  rw [scanAux_eq rw kw cs.length m.rest.length false m.rest hle (Nat.le_refl _)]

/-! ### Walk lemmas and the first-slot decomposition of a scan -/

theorem prevAfter_append (p : Bool) (a b : List Char) :
    prevAfter p (a ++ b) = prevAfter (prevAfter p a) b := by
  induction a generalizing p with
  | nil => rfl
  | cons c a ih => simp only [List.cons_append, prevAfter]; exact ih _

theorem walk_scan (rw : List Char → List Char) :
    ∀ {a kw : List Char} {p : Bool} {v : List Char},
      Walk kw p a v →
      scanF rw kw p (a ++ v) = a ++ scanF rw kw (prevAfter p a) v := by
  intro a
  induction a with
  | nil => intro kw p v _; rfl
  | cons c at2 ih =>
    intro kw p v h
    cases h with
    | skip _ _ _ hw =>
      rw [List.cons_append, scanF_skip, ih hw]
      rfl
    | step _ _ _ hnone hw =>
      rw [List.cons_append, scanF_nomatch rw kw c (at2 ++ v) hnone, ih hw]
      rfl

theorem walk_append :
    ∀ {a1 kw : List Char} {p : Bool} {a2 v : List Char},
      Walk kw p a1 (a2 ++ v) → Walk kw (prevAfter p a1) a2 v →
      Walk kw p (a1 ++ a2) v := by
  intro a1
  induction a1 with
  | nil => intro kw p a2 v _ h2; exact h2
  | cons c a1t ih =>
    intro kw p a2 v h1 h2
    cases h1 with
    | skip _ _ _ hw => exact Walk.skip c (a1t ++ a2) v (ih hw h2)
    | step _ _ _ hnone hw =>
      refine Walk.step c (a1t ++ a2) v ?_ (ih hw h2)
      rw [List.append_assoc]
      exact hnone

theorem scanF_fsd_aux (rw : List Char → List Char) (kw : List Char) :
    ∀ n s p, s.length ≤ n →
      (Walk kw p s [] ∧ scanF rw kw p s = s) ∨
      ∃ a v m, s = a ++ v ∧ Walk kw p a v ∧ prevAfter p a = false ∧
        tryMatch kw v = some m ∧
        scanF rw kw p s =
          a ++ ((kw ++ ' ' :: rw m.ref ++ m.sfx) ++ scanF rw kw false m.rest) := by
  intro n
  induction n with
  | zero =>
    intro s p h
    have hz : s = [] := List.eq_nil_of_length_eq_zero (Nat.le_zero.mp h)
    subst hz
    exact Or.inl ⟨Walk.nil p [], rfl⟩
  | succ n ih =>
    intro s p h
    cases s with
    | nil => exact Or.inl ⟨Walk.nil p [], rfl⟩
    | cons c cs =>
      have hlen : cs.length ≤ n := by simp at h; omega
      cases p with
      | true =>
        rcases ih cs (isWordChar c) hlen with ⟨hw, he⟩ |
          ⟨a, v, m, hsp, hw, hpa, hm, he⟩
        · exact Or.inl ⟨Walk.skip c cs [] hw, by rw [scanF_skip, he]⟩
        · refine Or.inr ⟨c :: a, v, m, by rw [hsp, List.cons_append],
            Walk.skip c a v hw, hpa, hm, ?_⟩
          rw [scanF_skip, he, List.cons_append]
      | false =>
        cases hm : tryMatch kw (c :: cs) with
        | some m =>
          refine Or.inr ⟨[], c :: cs, m, rfl, Walk.nil false (c :: cs), rfl, hm, ?_⟩
          rw [scanF_match rw kw c cs m hm, List.nil_append]
        | none =>
          rcases ih cs (isWordChar c) hlen with ⟨hw, he⟩ |
            ⟨a, v, m2, hsp, hw, hpa, hm2, he⟩
          · refine Or.inl ⟨Walk.step c cs [] (by simpa using hm) hw, ?_⟩
            rw [scanF_nomatch rw kw c cs hm, he]
          · refine Or.inr ⟨c :: a, v, m2, by rw [hsp, List.cons_append], ?_, hpa, hm2, ?_⟩
            · refine Walk.step c a v ?_ hw
              rw [← hsp]
              exact hm
            · rw [scanF_nomatch rw kw c cs hm, he, List.cons_append]

theorem scanF_fsd (rw : List Char → List Char) (kw : List Char) (p : Bool)
    (s : List Char) :
    (Walk kw p s [] ∧ scanF rw kw p s = s) ∨
    ∃ a v m, s = a ++ v ∧ Walk kw p a v ∧ prevAfter p a = false ∧
      tryMatch kw v = some m ∧
      scanF rw kw p s =
        a ++ ((kw ++ ' ' :: rw m.ref ++ m.sfx) ++ scanF rw kw false m.rest) :=
  scanF_fsd_aux rw kw s.length s p (Nat.le_refl _)

/-! ### The boundary lemma: a failing position stays failing when the
canonical segment behind it is rebuilt -/

theorem ws_sfx {c : Char} (h : isWsChar c = true) : isSfxChar c = true := by
  simp [isSfxChar, h]

theorem kwNoEnd_intro {kwP kwS : List Char}
    (h : kwP.length ≤ kwS.length ∨ kwP.drop (kwP.length - kwS.length) ≠ kwS) :
    kwNoEnd kwP kwS := by
  intro A hA
  subst hA
  rcases h with h | h
  · rw [List.length_append] at h
    have hl : A.length = 0 := by omega
    exact List.eq_nil_of_length_eq_zero hl
  · exfalso
    apply h
    have harith : (A ++ kwS).length - kwS.length = A.length := by
      simp [List.length_append]
    rw [harith, List.drop_left]

theorem boundary_none {kwP kwS P kwtxtS wsS v : List Char}
    (hgP : kwGood kwP) (hgS : kwGood kwS) (hne : kwNoEnd kwP kwS)
    (hP : P ≠ []) (hkS : kwtxtS.map Char.toUpper = kwS)
    (hwsne : wsS ≠ []) (hwsall : wsS.all isWsChar = true)
    (H1 : tryMatch kwP (P ++ (kwtxtS ++ (wsS ++ v))) = none)
    (W : List Char) :
    tryMatch kwP (P ++ (kwS ++ (' ' :: W))) = none := by
  have hSlen : 2 ≤ kwS.length := by have := hgS.1; omega
  have hTlen : kwtxtS.length = kwS.length := by rw [← hkS, List.length_map]
  have hTne : kwtxtS ≠ [] := by
    intro h0
    rw [h0] at hTlen
    simp at hTlen
    omega
  have hTword : ∀ x ∈ kwtxtS, isWordChar x = true := by
    intro x hx
    have hmem : x.toUpper ∈ kwS := by
      rw [← hkS]; exact List.mem_map_of_mem _ hx
    exact word_of_toUpper (List.all_eq_true.mp hgS.2.2.1 _ hmem) rfl
  have hTshape : refShape kwtxtS = true := by
    rw [refShape_iff]
    obtain ⟨c0, ct, hct⟩ : ∃ c0 ct, kwtxtS = c0 :: ct := by
      cases kwtxtS with
      | nil => exact absurd rfl hTne
      | cons a b => exact ⟨a, b, rfl⟩
    refine ⟨c0, ct, hct, ?_, ?_, ?_⟩
    · have hk0 : c0.toUpper ∈ kwS := by
        rw [← hkS, hct]; exact List.mem_map_of_mem _ (List.mem_cons_self _ _)
      exact idStart_of_toUpper (List.all_eq_true.mp hgS.2.1 _ hk0) rfl
    · intro h0
      rw [hct, h0] at hTlen
      simp at hTlen
      omega
    · rw [List.all_eq_true]
      intro x hx
      exact word_idChar (hTword x (by rw [hct]; exact List.mem_cons_of_mem _ hx))
  obtain ⟨d0, wsSt, hws0⟩ : ∃ d0 t, wsS = d0 :: t := by
    cases wsS with
    | nil => exact absurd rfl hwsne
    | cons a b => exact ⟨a, b, rfl⟩
  have hd0 : isWsChar d0 = true :=
    List.all_eq_true.mp hwsall d0 (by rw [hws0]; exact List.mem_cons_self _ _)
  cases hM : tryMatch kwP (P ++ (kwS ++ (' ' :: W))) with
  | none => rfl
  | some m =>
    exfalso
    obtain ⟨t, ws2, hsplit, htU, hws2ne, hws2all, href2, hsfx2⟩ := tryMatch_inv hM
    have htword : ∀ x ∈ t, isWordChar x = true := by
      intro x hx
      have hmem : x.toUpper ∈ kwP := by
        rw [← htU]; exact List.mem_map_of_mem _ hx
      exact word_of_toUpper (List.all_eq_true.mp hgP.2.2.1 _ hmem) rfl
    have hnoPkwS : t = P ++ kwS → False := by
      intro ht
      have hkP : kwP = P.map Char.toUpper ++ kwS := by
        rw [← htU, ht, List.map_append, hgS.2.2.2]
      have hPz := hne _ hkP
      have hPlen : P.length = 0 := by
        have := congrArg List.length hPz
        simpa using this
      exact hP (List.eq_nil_of_length_eq_zero hPlen)
    rcases List.append_eq_append_iff.mp hsplit with ⟨u, htu, hrest⟩ | ⟨u, hPu, hrest⟩
    · -- the matched keyword text extends beyond the walked prefix
      rcases List.append_eq_append_iff.mp hrest with ⟨a2, hua, ha2⟩ | ⟨u2, hku, hu2⟩
      · cases a2 with
        | nil =>
          rw [List.append_nil] at hua
          exact hnoPkwS (by rw [htu, hua])
        | cons y a2t =>
          rw [List.cons_append] at ha2
          injection ha2 with hy _
          have hyt : ' ' ∈ t := by
            rw [htu, hua, hy]
            exact List.mem_append_right _
              (List.mem_append_right _ (List.mem_cons_self _ _))
          have := htword _ hyt
          exact absurd this (by decide)
      · cases u2 with
        | nil =>
          rw [List.append_nil] at hku
          exact hnoPkwS (by rw [htu, ← hku])
        | cons x u2t =>
          obtain ⟨w0, ws2t, hw20⟩ : ∃ a b, ws2 = a :: b := by
            cases ws2 with
            | nil => exact absurd rfl hws2ne
            | cons a b => exact ⟨a, b, rfl⟩
          rw [hw20, List.cons_append, List.cons_append] at hu2
          injection hu2 with hx _
          have hxk : x ∈ kwS := by
            rw [hku]
            exact List.mem_append_right _ (List.mem_cons_self _ _)
          have hxid : isIdStart x = true := List.all_eq_true.mp hgS.2.1 _ hxk
          have hw0ws : isWsChar w0 = true :=
            List.all_eq_true.mp hws2all _ (by rw [hw20]; exact List.mem_cons_self _ _)
          rw [hx] at hw0ws
          rw [ws_not_idStart hw0ws] at hxid
          cases hxid
    · -- P = t ++ u : the keyword text lies inside the walked prefix
      rcases List.append_eq_append_iff.mp hrest with ⟨w2, huw, hB1⟩ | ⟨w2, hww, hB2⟩
      · -- u = ws2 ++ w2
        rcases List.append_eq_append_iff.mp hB1 with ⟨r2, hw2r, hk2⟩ | ⟨r2, hkr, hk2⟩
        · -- w2 = m.ref ++ r2 : the whole pass-2 match sits inside the prefix
          rcases hsfx2 with ⟨hs0, hr0⟩ | ⟨d, hsd, hd⟩
          · rw [hs0, hr0] at hk2
            have := congrArg List.length hk2
            simp [List.length_append] at this
            omega
          · rw [hsd] at hk2
            cases r2 with
            | nil =>
              rw [List.nil_append] at hk2
              obtain ⟨k0, kSt, hk0⟩ : ∃ a b, kwS = a :: b := by
                cases kwS with
                | nil => simp at hSlen
                | cons a b => exact ⟨a, b, rfl⟩
              rw [hk0, List.cons_append, List.cons_append] at hk2
              injection hk2 with hdk _
              have hk0id : isIdStart k0 = true :=
                List.all_eq_true.mp hgS.2.1 _ (by rw [hk0]; exact List.mem_cons_self _ _)
              rw [← hdk] at hk0id
              rw [sfx_not_idStart hd] at hk0id
              cases hk0id
            | cons d2 r2t =>
              rw [List.cons_append, List.cons_append] at hk2
              injection hk2 with hdd _
              have hcomp := tryMatch_comp htU hws2ne hws2all href2
                (show sfxOK [d] (r2t ++ (kwtxtS ++ (wsS ++ v))) from
                  Or.inr ⟨d, rfl, hd⟩)
              have hEq : P ++ (kwtxtS ++ (wsS ++ v)) =
                  t ++ (ws2 ++ (m.ref ++ ([d] ++ (r2t ++ (kwtxtS ++ (wsS ++ v)))))) := by
                rw [hPu, huw, hw2r, ← hdd]
                simp [List.append_assoc, List.cons_append, List.nil_append]
              rw [hEq, hcomp] at H1
              cases H1
        · -- m.ref = w2 ++ r2 : the reference run reaches the boundary
          have hshape2 : refShape (w2 ++ kwtxtS) = true := by
            cases w2 with
            | nil => simpa using hTshape
            | cons b0 w2t =>
              obtain ⟨c0, cs0, href0, hc0, hcs0ne, hcs0⟩ := refShape_iff.mp href2
              rw [hkr, List.cons_append] at href0
              injection href0 with hb0 hcseq
              rw [refShape_iff]
              refine ⟨b0, w2t ++ kwtxtS, by rw [List.cons_append], ?_, ?_, ?_⟩
              · rw [hb0]; exact hc0
              · intro hnil
                rcases List.append_eq_nil.mp hnil with ⟨_, h2⟩
                exact hTne h2
              · rw [List.all_eq_true]
                intro x hx
                rcases List.mem_append.mp hx with hx | hx
                · have hxcs : x ∈ cs0 := by
                    rw [← hcseq]
                    exact List.mem_append_left _ hx
                  exact List.all_eq_true.mp hcs0 _ hxcs
                · exact word_idChar (hTword _ hx)
          have hcomp := tryMatch_comp htU hws2ne hws2all hshape2
            (show sfxOK [d0] (wsSt ++ v) from Or.inr ⟨d0, rfl, ws_sfx hd0⟩)
          have hEq : P ++ (kwtxtS ++ (wsS ++ v)) =
              t ++ (ws2 ++ ((w2 ++ kwtxtS) ++ ([d0] ++ (wsSt ++ v)))) := by
            rw [hPu, huw, hws0]
            simp [List.append_assoc, List.cons_append, List.nil_append]
          rw [hEq, hcomp] at H1
          cases H1
      · -- ws2 = u ++ w2 : the whitespace run reaches the boundary
        cases w2 with
        | cons x w2t =>
          have hxws : isWsChar x = true :=
            List.all_eq_true.mp hws2all _
              (by rw [hww]; exact List.mem_append_right _ (List.mem_cons_self _ _))
          obtain ⟨k0, kSt, hk0⟩ : ∃ a b, kwS = a :: b := by
            cases kwS with
            | nil => simp at hSlen
            | cons a b => exact ⟨a, b, rfl⟩
          rw [hk0, List.cons_append, List.cons_append] at hB2
          injection hB2 with hk0x _
          have hk0id : isIdStart k0 = true :=
            List.all_eq_true.mp hgS.2.1 _ (by rw [hk0]; exact List.mem_cons_self _ _)
          rw [hk0x] at hk0id
          rw [ws_not_idStart hxws] at hk0id
          cases hk0id
        | nil =>
          rw [List.append_nil] at hww
          have hcomp := tryMatch_comp htU hws2ne hws2all hTshape
            (show sfxOK [d0] (wsSt ++ v) from Or.inr ⟨d0, rfl, ws_sfx hd0⟩)
          have hEq : P ++ (kwtxtS ++ (wsS ++ v)) =
              t ++ (ws2 ++ (kwtxtS ++ ([d0] ++ (wsSt ++ v)))) := by
            rw [hPu, ← hww, hws0]
            simp [List.append_assoc, List.cons_append, List.nil_append]
          rw [hEq, hcomp] at H1
          cases H1

/-! ### State helpers and specialised walks -/

theorem kw_head_upper {kw : List Char} (hg : kwGood kw) {c : Char} {t : List Char}
    (h : kw = c :: t) : c.toUpper = c := by
  have h2 := hg.2.2.2
  rw [h, List.map_cons] at h2
  injection h2 with h3 _

theorem kw_cons {kw : List Char} (hg : kwGood kw) : ∃ c t, kw = c :: t := by
  cases kw with
  | nil => have := hg.1; simp at this
  | cons c t => exact ⟨c, t, rfl⟩

theorem prevAfter_last (p : Bool) (l : List Char) (x : Char) :
    prevAfter p (l ++ [x]) = isWordChar x := by
  induction l generalizing p with
  | nil => rfl
  | cons c ct ih => simp only [List.cons_append, prevAfter]; exact ih _

theorem prevAfter_word {l : List Char} (hne : l ≠ [])
    (h : ∀ c ∈ l, isWordChar c = true) (p : Bool) : prevAfter p l = true := by
  rcases List.eq_nil_or_concat l with rfl | ⟨L, b, rfl⟩
  · exact absurd rfl hne
  · rw [List.concat_eq_append] at h
    rw [List.concat_eq_append, prevAfter_last]
    exact h b (List.mem_append_right _ (List.mem_cons_self _ _))

theorem prevAfter_ws {l : List Char} (h : ∀ c ∈ l, isWsChar c = true)
    (hne : l ≠ []) (p : Bool) : prevAfter p l = false := by
  rcases List.eq_nil_or_concat l with rfl | ⟨L, b, rfl⟩
  · exact absurd rfl hne
  · rw [List.concat_eq_append] at h
    rw [List.concat_eq_append, prevAfter_last]
    exact ws_not_word (h b (List.mem_append_right _ (List.mem_cons_self _ _)))

theorem dropWhile_head_false (p : Char → Bool) :
    ∀ (l : List Char) {d : Char} {r : List Char}, l.dropWhile p = d :: r → p d = false := by
  intro l
  induction l with
  | nil => intro d r h; cases h
  | cons c ct ih =>
    intro d r h
    rw [List.dropWhile_cons] at h
    by_cases hc : p c = true
    · rw [if_pos hc] at h; exact ih h
    · rw [if_neg hc] at h
      injection h with h1 _
      rw [← h1]
      simpa using hc

theorem walk_split :
    ∀ {a1 kw : List Char} {p : Bool} {a2 v : List Char},
      Walk kw p (a1 ++ a2) v →
      Walk kw p a1 (a2 ++ v) ∧ Walk kw (prevAfter p a1) a2 v := by
  intro a1
  induction a1 with
  | nil => intro kw p a2 v h; exact ⟨Walk.nil p _, h⟩
  | cons c a1t ih =>
    intro kw p a2 v h
    rw [List.cons_append] at h
    cases h with
    | skip _ _ _ hw =>
      obtain ⟨h1, h2⟩ := ih hw
      exact ⟨Walk.skip c a1t (a2 ++ v) h1, h2⟩
    | step _ _ _ hnone hw =>
      obtain ⟨h1, h2⟩ := ih hw
      refine ⟨Walk.step c a1t (a2 ++ v) ?_ h1, h2⟩
      rw [← List.append_assoc]
      exact hnone

theorem walk_fix (rw : List Char → List Char) {kw : List Char} {p : Bool}
    {s : List Char} (h : Walk kw p s []) : scanF rw kw p s = s := by
  have h2 := walk_scan rw h
  simpa [scanF_nil] using h2

theorem walk_ws {kw : List Char} (hg : kwGood kw) :
    ∀ (l : List Char), (∀ c ∈ l, isWsChar c = true) →
      ∀ (p : Bool) (tail : List Char), Walk kw p l tail := by
  intro l
  induction l with
  | nil => intro _ p tail; exact Walk.nil p tail
  | cons c ct ih =>
    intro h p tail
    have hc : isWsChar c = true := h c (List.mem_cons_self _ _)
    have hrec := ih (fun x hx => h x (List.mem_cons_of_mem _ hx)) (isWordChar c) tail
    cases p with
    | true => exact Walk.skip c ct tail hrec
    | false =>
      exact Walk.step c ct tail
        (tryMatch_nonIdStart_fail hg (ws_not_idStart hc)) hrec

theorem walk_word_true {kw : List Char} :
    ∀ (l : List Char), (∀ c ∈ l, isWordChar c = true) →
      ∀ (tail : List Char), Walk kw true l tail := by
  intro l
  induction l with
  | nil => intro _ tail; exact Walk.nil true tail
  | cons c ct ih =>
    intro h tail
    have hc := h c (List.mem_cons_self _ _)
    have hrec : Walk kw (isWordChar c) ct tail := by
      rw [hc]
      exact ih (fun x hx => h x (List.mem_cons_of_mem _ hx)) tail
    exact Walk.skip c ct tail hrec

theorem walk_token_space {kwK : List Char} (hgK : kwGood kwK)
    {T : List Char} (hT : ∀ c ∈ T, isWordChar c = true)
    {c0 : Char} {T0 : List Char} (hT0 : T = c0 :: T0)
    (hhead : ∀ k0 kt, kwK = k0 :: kt → ¬ c0.toUpper = k0)
    (tail : List Char) :
    Walk kwK false (T ++ [' ']) tail := by
  subst hT0
  obtain ⟨k0, kt, hk⟩ := kw_cons hgK
  rw [List.cons_append]
  refine Walk.step c0 (T0 ++ [' ']) tail ?_ ?_
  · rw [hk]
    exact tryMatch_head_fail (hhead k0 kt hk)
  · have hc0 : isWordChar c0 = true := hT _ (List.mem_cons_self _ _)
    rw [hc0]
    have hpa : prevAfter true T0 = true := by
      cases hT0e : T0 with
      | nil => rfl
      | cons x xs =>
        refine prevAfter_word (by simp) ?_ true
        intro y hy
        exact hT y (List.mem_cons_of_mem _ (hT0e ▸ hy))
    refine walk_append ?_ ?_
    · exact walk_word_true T0
        (fun x hx => hT x (List.mem_cons_of_mem _ hx)) ([' '] ++ tail)
    · rw [hpa]
      refine Walk.skip ' ' [] tail ?_
      have : isWordChar ' ' = false := by decide
      rw [this]
      exact Walk.nil false tail

theorem walk_dotted_aux {kwK : List Char} (hgK : kwGood kwK) :
    ∀ n (D : List Char), D.length ≤ n → (∀ c ∈ D, isIdChar c = true) →
      (D = [] ∨ ∃ L, D = L ++ ['.']) →
      ∀ tail, Walk kwK false D tail := by
  intro n
  induction n with
  | zero =>
    intro D hD _ _ tail
    have hz : D = [] := List.eq_nil_of_length_eq_zero (Nat.le_zero.mp hD)
    subst hz
    exact Walk.nil false tail
  | succ n ih =>
    intro D hD hid hdot tail
    cases D with
    | nil => exact Walk.nil false tail
    | cons c D2 =>
      by_cases hw : isWordChar c = true
      · have htokall : ∀ x ∈ D2.takeWhile isWordChar, isWordChar x = true :=
          fun x hx => List.mem_takeWhile_imp hx
        have hsplit2 : D2 = D2.takeWhile isWordChar ++ D2.dropWhile isWordChar :=
          (List.takeWhile_append_dropWhile _ _).symm
        cases hrest : D2.dropWhile isWordChar with
        | nil =>
          exfalso
          rcases hdot with h0 | ⟨L, hL⟩
          · exact absurd h0 (by simp)
          · have hlast : prevAfter false (c :: D2) = true := by
              refine prevAfter_word (by simp) ?_ false
              intro y hy
              rcases List.mem_cons.mp hy with rfl | hy2
              · exact hw
              · rw [hsplit2, hrest, List.append_nil] at hy2
                exact htokall y hy2
            rw [hL, prevAfter_last] at hlast
            exact absurd hlast (by decide)
        | cons d rest2 =>
          have hdw : isWordChar d = false := dropWhile_head_false _ D2 hrest
          have hdid : isIdChar d = true := by
            apply hid
            refine List.mem_cons_of_mem _ ?_
            rw [hsplit2, hrest]
            exact List.mem_append_right _ (List.mem_cons_self _ _)
          have hd : d = '.' := by
            simp [isIdChar, hdw] at hdid
            exact hdid
          have hD2 : c :: D2 = (c :: D2.takeWhile isWordChar) ++ ('.' :: rest2) := by
            rw [List.cons_append]
            congr 1
            nth_rewrite 1 [hsplit2]
            rw [hrest, hd]
          rw [hD2]
          refine walk_append ?_ ?_
          · refine Walk.step c (D2.takeWhile isWordChar) _ ?_ ?_
            · have hwall : ∀ x ∈ c :: D2.takeWhile isWordChar, isWordChar x = true := by
                intro y hy
                rcases List.mem_cons.mp hy with rfl | hy2
                · exact hw
                · exact htokall y hy2
              have h9 : tryMatch kwK
                  ((c :: D2.takeWhile isWordChar) ++ '.' :: (rest2 ++ tail)) = none :=
                tryMatch_token_dot_fail hgK hwall
              rw [List.cons_append] at h9
              simpa [List.cons_append, List.append_assoc] using h9
            · have hww : Walk kwK true (D2.takeWhile isWordChar)
                  (('.' :: rest2) ++ tail) := walk_word_true _ htokall _
              rw [hw]
              exact hww
          · have hpa : prevAfter false (c :: D2.takeWhile isWordChar) = true := by
              refine prevAfter_word (by simp) ?_ false
              intro y hy
              rcases List.mem_cons.mp hy with rfl | hy2
              · exact hw
              · exact htokall y hy2
            rw [hpa]
            refine Walk.skip '.' rest2 tail ?_
            have hdw2 : isWordChar '.' = false := by decide
            rw [hdw2]
            refine ih rest2 ?_ ?_ ?_ tail
            · have h10 := congrArg List.length hsplit2
              rw [hrest] at h10
              simp [List.length_append] at h10
              simp at hD
              omega
            · intro x hx
              apply hid
              refine List.mem_cons_of_mem _ ?_
              rw [hsplit2, hrest]
              exact List.mem_append_right _ (List.mem_cons_of_mem _ hx)
            · rcases hdot with h0 | ⟨L, hL⟩
              · exact absurd h0 (by simp)
              · rcases List.eq_nil_or_concat rest2 with hr2 | ⟨R, b, hR⟩
                · exact Or.inl hr2
                · rw [List.concat_eq_append] at hR
                  refine Or.inr ⟨R, ?_⟩
                  rw [hR]
                  have hall : (c :: D2.takeWhile isWordChar) ++ '.' :: (R ++ [b]) =
                      L ++ ['.'] := by
                    rw [← hR, ← hD2, hL]
                  have hre : ((c :: D2.takeWhile isWordChar) ++ ('.' :: R)) ++ [b] =
                      L ++ ['.'] := by
                    rw [← hall]
                    simp [List.cons_append, List.append_assoc]
                  have hlen : [b].length = ['.'].length := rfl
                  have := (List.append_inj' hre hlen).2
                  injection this with hb _
                  rw [hb]
      · have hcid : isIdChar c = true := hid c (List.mem_cons_self _ _)
        have hc : c = '.' := by
          simp [isIdChar, hw] at hcid
          exact hcid
        refine Walk.step c D2 tail ?_ ?_
        · refine tryMatch_nonIdStart_fail hgK ?_
          rw [hc]
          decide
        · have hwf : isWordChar c = false := by simpa using hw
          rw [hwf]
          refine ih D2 (by simp at hD; omega)
            (fun x hx => hid x (List.mem_cons_of_mem _ hx)) ?_ tail
          rcases hdot with h0 | ⟨L, hL⟩
          · exact absurd h0 (by simp)
          · cases L with
            | nil =>
              rw [List.nil_append] at hL
              injection hL with _ h2
              exact Or.inl h2
            | cons x L2 =>
              rw [List.cons_append] at hL
              injection hL with _ h2
              exact Or.inr ⟨L2, h2⟩

theorem walk_dotted {kwK : List Char} (hgK : kwGood kwK) {D : List Char}
    (hid : ∀ c ∈ D, isIdChar c = true) (hdot : D = [] ∨ ∃ L, D = L ++ ['.'])
    (tail : List Char) : Walk kwK false D tail :=
  walk_dotted_aux hgK D.length D (Nat.le_refl _) hid hdot tail

/-! ### The universal none-transport: a failing probe keeps failing on a
scanned continuation -/

theorem gunt {kwK kwJ : List Char} (hgK : kwGood kwK) (hgJ : kwGood kwJ)
    (hne : kwNoEnd kwK kwJ) (hh : kwHeadNe kwK kwJ ∨ kwK = kwJ)
    (rw : List Char → List Char) (X r : List Char)
    (h : tryMatch kwK (X ++ r) = none) :
    tryMatch kwK (X ++ scanF rw kwJ false r) = none := by
  rcases scanF_fsd rw kwJ false r with ⟨_, he⟩ | ⟨a, v, m, hsp, hw, hpa, hm, he⟩
  · rw [he]; exact h
  · rw [he]
    obtain ⟨tj, wsj, hv, htj, hwsne, hwsall, _, _⟩ := tryMatch_inv hm
    by_cases hXa : X ++ a = []
    · obtain ⟨hX, ha⟩ := List.append_eq_nil.mp hXa
      subst hX; subst ha
      rcases hh with hh | hkj
      · obtain ⟨j0, jt, hj0⟩ := kw_cons hgJ
        obtain ⟨k0, kt, hk0⟩ := kw_cons hgK
        have hju : j0.toUpper = j0 := kw_head_upper hgJ hj0
        have hne0 : ¬ j0.toUpper = k0 := by
          rw [hju]
          exact (hh k0 j0 kt jt hk0 hj0).symm
        simp only [List.nil_append]
        rw [hk0, hj0, List.cons_append, List.cons_append]
        exact tryMatch_head_fail hne0
      · subst hkj
        rw [List.nil_append] at h
        rw [hsp, List.nil_append] at h
        rw [h] at hm
        cases hm
    · have H1 : tryMatch kwK
          ((X ++ a) ++ (tj ++ (wsj ++ (m.ref ++ (m.sfx ++ m.rest))))) = none := by
        rw [← hv, List.append_assoc, ← hsp]
        exact h
      have h2 := boundary_none hgK hgJ hne hXa htj hwsne hwsall H1
        (rw m.ref ++ (m.sfx ++ scanF rw kwJ false m.rest))
      have heq : X ++ (a ++ ((kwJ ++ ' ' :: rw m.ref ++ m.sfx) ++
            scanF rw kwJ false m.rest)) =
          (X ++ a) ++ (kwJ ++ (' ' :: (rw m.ref ++
            (m.sfx ++ scanF rw kwJ false m.rest)))) := by
        simp [List.append_assoc, List.cons_append]
      rw [heq]
      exact h2

theorem wtrans {kwK kwJ : List Char} (hgK : kwGood kwK) (hgJ : kwGood kwJ)
    (hne : kwNoEnd kwK kwJ) (hh : kwHeadNe kwK kwJ ∨ kwK = kwJ)
    (rw : List Char → List Char) :
    ∀ {b : List Char} {p : Bool} {r : List Char},
      Walk kwK p b r → Walk kwK p b (scanF rw kwJ false r) := by
  intro b
  induction b with
  | nil => intro p r _; exact Walk.nil _ _
  | cons c bt ih =>
    intro p r h
    cases h with
    | skip _ _ _ hw => exact Walk.skip _ _ _ (ih hw)
    | step _ _ _ hnone hw =>
      refine Walk.step _ _ _ ?_ (ih hw)
      have h2 := gunt hgK hgJ hne hh rw (c :: bt) r
        (by rw [List.cons_append]; exact hnone)
      rw [List.cons_append] at h2
      exact h2

theorem wtrans_mid {kwK kwJ : List Char} (hgK : kwGood kwK) (hgJ : kwGood kwJ)
    (hne : kwNoEnd kwK kwJ) (hh : kwHeadNe kwK kwJ ∨ kwK = kwJ)
    (rw : List Char → List Char) :
    ∀ {b : List Char} {p : Bool} {M r : List Char},
      Walk kwK p b (M ++ r) → Walk kwK p b (M ++ scanF rw kwJ false r) := by
  intro b
  induction b with
  | nil => intro p M r _; exact Walk.nil _ _
  | cons c bt ih =>
    intro p M r h
    cases h with
    | skip _ _ _ hw => exact Walk.skip _ _ _ (ih hw)
    | step _ _ _ hnone hw =>
      refine Walk.step _ _ _ ?_ (ih hw)
      have h2 := gunt hgK hgJ hne hh rw (c :: (bt ++ M)) r
        (by
          rw [show (c :: (bt ++ M)) ++ r = c :: (bt ++ (M ++ r)) from by
            simp [List.append_assoc, List.cons_append]]
          exact hnone)
      rw [show (c :: (bt ++ M)) ++ scanF rw kwJ false r =
        c :: (bt ++ (M ++ scanF rw kwJ false r)) from by
          simp [List.append_assoc, List.cons_append]] at h2
      exact h2

/-! ### Fix-step inversion: a match inside a fixed string is exactly canonical -/

theorem refShape_all_id {ref : List Char} (h : refShape ref = true) :
    ∀ x ∈ ref, isIdChar x = true := by
  obtain ⟨c, cs, rfl, h1, _, h3⟩ := refShape_iff.mp h
  intro x hx
  rcases List.mem_cons.mp hx with rfl | hx2
  · exact idStart_idChar h1
  · exact List.all_eq_true.mp h3 _ hx2

theorem fix_step_inv {kwK : List Char} (hgK : kwGood kwK)
    (rw : List Char → List Char)
    (hR1 : ∀ ref, refShape ref = true → refShape (rw ref) = true)
    {v : List Char} {m : MatchRes}
    (hm : tryMatch kwK v = some m)
    (hfix : scanF rw kwK false v = v) :
    v = kwK ++ ([' '] ++ (m.ref ++ (m.sfx ++ m.rest))) ∧
      rw m.ref = m.ref ∧ scanF rw kwK false m.rest = m.rest := by
  obtain ⟨kwtxt, ws, hv, hmap, hwsne, hwsall, href, hsfx⟩ := tryMatch_inv hm
  obtain ⟨c, cs, hvc⟩ : ∃ c cs, v = c :: cs := by
    cases v with
    | nil =>
      exfalso
      obtain ⟨k0, kt, hk⟩ := kw_cons hgK
      rw [hk] at hm
      simp [tryMatch, matchKw] at hm
    | cons c cs => exact ⟨c, cs, rfl⟩
  subst hvc
  have hsm := scanF_match rw kwK c cs m hm
  rw [hfix] at hsm
  have heq := hv.symm.trans hsm
  simp only [List.append_assoc, List.cons_append] at heq
  have hlen : kwtxt.length = kwK.length := by rw [← hmap, List.length_map]
  obtain ⟨hkw, htail⟩ := List.append_inj heq hlen
  obtain ⟨r0, rt, hr0, hr0id, _, _⟩ := refShape_iff.mp href
  have hrw := hR1 _ href
  obtain ⟨q0, qt, hq0, hq0id, _, _⟩ := refShape_iff.mp hrw
  have htakeL : (ws ++ (m.ref ++ (m.sfx ++ m.rest))).takeWhile isWsChar = ws := by
    rw [takeWhile_all_append _ ws _ (List.all_eq_true.mp hwsall), hr0,
      List.cons_append, takeWhile_head_neg _ _ _ (idStart_not_ws hr0id),
      List.append_nil]
  have hspace : isWsChar ' ' = true := by decide
  have hq0ws : isWsChar q0 = false := idStart_not_ws hq0id
  have htakeR : (' ' :: (rw m.ref ++
      (m.sfx ++ scanF rw kwK false m.rest))).takeWhile isWsChar = [' '] := by
    rw [hq0, List.cons_append]
    simp [List.takeWhile_cons, hspace, hq0ws]
  have hws : ws = [' '] := by rw [← htakeL, htail, htakeR]
  have hdropL : (ws ++ (m.ref ++ (m.sfx ++ m.rest))).dropWhile isWsChar =
      m.ref ++ (m.sfx ++ m.rest) := by
    rw [dropWhile_all_append _ ws _ (List.all_eq_true.mp hwsall), hr0,
      List.cons_append, dropWhile_head_neg _ _ _ (idStart_not_ws hr0id),
      ← List.cons_append, ← hr0]
  have hdropR : (' ' :: (rw m.ref ++
      (m.sfx ++ scanF rw kwK false m.rest))).dropWhile isWsChar =
      rw m.ref ++ (m.sfx ++ scanF rw kwK false m.rest) := by
    rw [hq0, List.cons_append]
    simp [List.dropWhile_cons, hspace, hq0ws]
  have htail2 : m.ref ++ (m.sfx ++ m.rest) =
      rw m.ref ++ (m.sfx ++ scanF rw kwK false m.rest) := by
    rw [← hdropL, htail, hdropR]
  have hvfin : (c :: cs) = kwK ++ ([' '] ++ (m.ref ++ (m.sfx ++ m.rest))) := by
    rw [hv, hkw, hws]
  rcases hsfx with ⟨hs0, hr0e⟩ | ⟨d, hsd, hd⟩
  · rw [hs0, hr0e] at htail2
    simp only [List.nil_append, List.append_nil, scanF_nil] at htail2
    refine ⟨hvfin, htail2.symm, ?_⟩
    rw [hr0e, scanF_nil]
  · have hidL : (m.ref ++ (m.sfx ++ m.rest)).takeWhile isIdChar = m.ref := by
      rw [takeWhile_all_append _ _ _ (refShape_all_id href), hsd,
        List.cons_append, takeWhile_head_neg _ _ _ (sfx_not_idChar hd),
        List.append_nil]
    have hidR : (rw m.ref ++ (m.sfx ++ scanF rw kwK false m.rest)).takeWhile
        isIdChar = rw m.ref := by
      rw [takeWhile_all_append _ _ _ (refShape_all_id hrw), hsd,
        List.cons_append, takeWhile_head_neg _ _ _ (sfx_not_idChar hd),
        List.append_nil]
    have hrweq : rw m.ref = m.ref := by
      have h5 : m.ref = rw m.ref := by
        calc m.ref = (m.ref ++ (m.sfx ++ m.rest)).takeWhile isIdChar := hidL.symm
          _ = (rw m.ref ++ (m.sfx ++ scanF rw kwK false m.rest)).takeWhile
              isIdChar := by rw [htail2]
          _ = rw m.ref := hidR
      exact h5.symm
    refine ⟨hvfin, hrweq, ?_⟩
    rw [hrweq] at htail2
    have h3 := List.append_cancel_left htail2
    have h4 := List.append_cancel_left h3
    exact h4.symm

/-! ### Self-idempotence of a single keyword pass -/

theorem scan_idem_aux {kwJ : List Char} (hgJ : kwGood kwJ)
    (rw : List Char → List Char)
    (hR1 : ∀ ref, refShape ref = true → refShape (rw ref) = true)
    (hR2 : ∀ ref, refShape ref = true → rw (rw ref) = rw ref) :
    ∀ n s, s.length ≤ n →
      scanF rw kwJ false (scanF rw kwJ false s) = scanF rw kwJ false s := by
  intro n
  induction n with
  | zero =>
    intro s h
    have hz : s = [] := List.eq_nil_of_length_eq_zero (Nat.le_zero.mp h)
    subst hz
    rfl
  | succ n ih =>
    intro s hs
    rcases scanF_fsd rw kwJ false s with ⟨_, he⟩ | ⟨a, v, m, hsp, hw, hpa, hm, he⟩
    · rw [he]; exact he
    · rw [he]
      obtain ⟨tj, wsj, hv, htj, hwsne, hwsall, href, hsfx⟩ := tryMatch_inv hm
      have hnoend : kwNoEnd kwJ kwJ := kwNoEnd_intro (Or.inl (Nat.le_refl _))
      have hw2 : Walk kwJ false a (scanF rw kwJ false v) :=
        wtrans hgJ hgJ hnoend (Or.inr rfl) rw hw
      obtain ⟨c, cs, hvc⟩ : ∃ c cs, v = c :: cs := by
        cases v with
        | nil =>
          exfalso
          obtain ⟨k0, kt, hk⟩ := kw_cons hgJ
          rw [hk] at hm
          simp [tryMatch, matchKw] at hm
        | cons c cs => exact ⟨c, cs, rfl⟩
      have hsv : scanF rw kwJ false v =
          (kwJ ++ ' ' :: rw m.ref ++ m.sfx) ++ scanF rw kwJ false m.rest := by
        rw [hvc]
        exact scanF_match rw kwJ c cs m (by rw [← hvc]; exact hm)
      have hS0 : sfxOK m.sfx (scanF rw kwJ false m.rest) := by
        rcases hsfx with ⟨h1, h2⟩ | ⟨d, h1, h2⟩
        · exact Or.inl ⟨h1, by rw [h2]; rfl⟩
        · exact Or.inr ⟨d, h1, h2⟩
      have hcomp := tryMatch_comp hgJ.2.2.2
        (by simp : ([' '] : List Char) ≠ [])
        (by decide : ([' '] : List Char).all isWsChar = true)
        (hR1 _ href) hS0
      obtain ⟨j0, jt, hj⟩ := kw_cons hgJ
      have hXeq : (kwJ ++ ' ' :: rw m.ref ++ m.sfx) ++ scanF rw kwJ false m.rest =
          j0 :: (jt ++ (' ' :: (rw m.ref ++ (m.sfx ++ scanF rw kwJ false m.rest)))) := by
        rw [hj]
        simp [List.append_assoc, List.cons_append]
      have hm2 : tryMatch kwJ (j0 :: (jt ++ (' ' :: (rw m.ref ++
          (m.sfx ++ scanF rw kwJ false m.rest))))) =
          some ⟨rw m.ref, m.sfx, scanF rw kwJ false m.rest⟩ := by
        rw [← hXeq]
        have hES : (kwJ ++ ' ' :: rw m.ref ++ m.sfx) ++ scanF rw kwJ false m.rest =
            kwJ ++ ([' '] ++ (rw m.ref ++ (m.sfx ++ scanF rw kwJ false m.rest))) := by
          simp [List.append_assoc, List.cons_append]
        rw [hES]
        exact hcomp
      have hsE := scanF_match rw kwJ j0
        (jt ++ (' ' :: (rw m.ref ++ (m.sfx ++ scanF rw kwJ false m.rest))))
        ⟨rw m.ref, m.sfx, scanF rw kwJ false m.rest⟩ hm2
      dsimp only at hsE
      have hrest_len : m.rest.length ≤ n := by
        have h1 := tryMatch_rest_lt hm
        have h2 := congrArg List.length hsp
        simp [List.length_append] at h2
        omega
      have hidem := ih m.rest hrest_len
      suffices hfin : scanF rw kwJ false
          (a ++ ((kwJ ++ ' ' :: rw m.ref ++ m.sfx) ++ scanF rw kwJ false m.rest)) =
          a ++ ((kwJ ++ ' ' :: rw m.ref ++ m.sfx) ++ scanF rw kwJ false m.rest) by
        exact hfin
      rw [← hsv, walk_scan rw hw2, hpa]
      congr 1
      rw [hsv, hXeq, hsE, hR2 _ href, hidem, ← hXeq]

/-! ### Assembly helpers for fixed-point scans -/

theorem fix_concat (rw : List Char → List Char) {kw X Y : List Char}
    (hW : Walk kw false X Y) (hpa : prevAfter false X = false)
    (hF : scanF rw kw false Y = Y) :
    scanF rw kw false (X ++ Y) = X ++ Y := by
  rw [walk_scan rw hW, hpa, hF]

theorem fix_split (rw : List Char → List Char) {kw X Y : List Char}
    (hW : Walk kw false X Y) (hpa : prevAfter false X = false)
    (hF : scanF rw kw false (X ++ Y) = X ++ Y) :
    scanF rw kw false Y = Y := by
  rw [walk_scan rw hW, hpa] at hF
  exact List.append_cancel_left hF

theorem fix_canonical_slot {kwK : List Char} (hgK : kwGood kwK)
    (rw : List Char → List Char) {ref sfx rest : List Char}
    (href : refShape ref = true) (hsfx : sfxOK sfx rest)
    (hrw : rw ref = ref) (hrest : scanF rw kwK false rest = rest) :
    scanF rw kwK false (kwK ++ ([' '] ++ (ref ++ (sfx ++ rest)))) =
      kwK ++ ([' '] ++ (ref ++ (sfx ++ rest))) := by
  obtain ⟨k0, kt, hk⟩ := kw_cons hgK
  have hcomp := tryMatch_comp hgK.2.2.2
    (by simp : ([' '] : List Char) ≠ [])
    (by decide : ([' '] : List Char).all isWsChar = true) href hsfx
  have hXeq : kwK ++ ([' '] ++ (ref ++ (sfx ++ rest))) =
      k0 :: (kt ++ ([' '] ++ (ref ++ (sfx ++ rest)))) := by
    rw [hk]; simp
  rw [hXeq]
  have hm2 : tryMatch kwK (k0 :: (kt ++ ([' '] ++ (ref ++ (sfx ++ rest))))) =
      some ⟨ref, sfx, rest⟩ := by
    rw [← hXeq]; exact hcomp
  rw [scanF_match rw kwK k0 _ _ hm2]
  dsimp only
  rw [hrw, hrest, hk]
  simp [List.append_assoc, List.cons_append]

theorem scan_token_space {kwJ : List Char} (hgJ : kwGood kwJ)
    (rw : List Char → List Char) {T : List Char}
    (hT : ∀ c ∈ T, isWordChar c = true)
    {c0 : Char} {T0 : List Char} (hT0 : T = c0 :: T0)
    (hhead : ∀ j0 jt, kwJ = j0 :: jt → ¬ c0.toUpper = j0)
    (r : List Char) :
    scanF rw kwJ false ((T ++ [' ']) ++ r) =
      (T ++ [' ']) ++ scanF rw kwJ false r := by
  have hW := walk_token_space hgJ hT hT0 hhead r
  rw [walk_scan rw hW, prevAfter_last]
  rw [show isWordChar ' ' = false from by decide]

theorem id_not_word_dot {c : Char} (h1 : isIdChar c = true)
    (h2 : isWordChar c = false) : c = '.' := by
  simp [isIdChar, h2] at h1
  exact h1

theorem ws_not_id {c : Char} (h : isWsChar c = true) : isIdChar c = false := by
  have hw := ws_not_word h
  have hne : c ≠ '.' := by
    intro h2
    rw [h2] at h
    exact absurd h (by decide)
  simp [isIdChar, hw, hne]

/-! ### The master preservation induction: a fixed point of one keyword scan
stays fixed under another keyword pass -/

theorem master {kwK kwJ : List Char} (hgK : kwGood kwK) (hgJ : kwGood kwJ)
    (hKJ : kwHeadNe kwK kwJ) (hneKJ : kwNoEnd kwK kwJ)
    (rw : List Char → List Char)
    (hR1 : ∀ ref, refShape ref = true → refShape (rw ref) = true)
    (hRSH : ∀ ref, refShape ref = true →
      rw ref = ref ∨ ∃ D, rw ref = D ++ ref ∧ (∀ c ∈ D, isIdChar c = true) ∧
        ∃ L, D = L ++ ['.'])
    (hR3 : ∀ α x y, (α = [] ∨ ∃ L, α = L ++ ['.']) →
      refShape (α ++ x) = true → refShape (α ++ y) = true →
      (∀ c ∈ x, isWordChar c = true) → (∀ c ∈ y, isWordChar c = true) →
      rw (α ++ x) = α ++ x → rw (α ++ y) = α ++ y) :
    ∀ n : Nat,
      (∀ ref sfx r, refShape ref = true → sfxOK sfx r →
        ref.length + sfx.length + r.length + 5 ≤ n →
        scanF rw kwK false (ref ++ (sfx ++ r)) = ref ++ (sfx ++ r) →
        scanF rw kwK false (rw ref ++ (sfx ++ scanF rw kwJ false r)) =
          rw ref ++ (sfx ++ scanF rw kwJ false r)) ∧
      (∀ s, s.length ≤ n → scanF rw kwK false s = s →
        scanF rw kwK false (scanF rw kwJ false s) = scanF rw kwJ false s) := by
  intro n
  induction n using Nat.strong_induction_on with
  | _ n IH =>
  have hcore : ∀ ref sfx r, refShape ref = true → sfxOK sfx r →
      ref.length + sfx.length + r.length + 5 ≤ n →
      scanF rw kwK false (ref ++ (sfx ++ r)) = ref ++ (sfx ++ r) →
      scanF rw kwK false (ref ++ (sfx ++ scanF rw kwJ false r)) =
        ref ++ (sfx ++ scanF rw kwJ false r) := by
    intro ref sfx r href hsfxok hmeas hfix
    rcases hsfxok with ⟨hs0, hr0⟩ | ⟨d, hsd, hd⟩
    · subst hs0; subst hr0
      simp only [scanF_nil, List.append_nil, List.nil_append] at hfix ⊢
      exact hfix
    · subst hsd
      have hmea2 : ref.length + 1 + r.length + 5 ≤ n := by
        simp only [List.length_cons, List.length_nil] at hmeas
        omega
      rcases scanF_fsd rw kwK false (ref ++ ([d] ++ r)) with ⟨hWall, _⟩ |
        ⟨b, w, mk, hbw, hWb, hpb, hmk, _⟩
      · -- the scanning keyword never matches : transport the walk
        have hW2 : Walk kwK false ((ref ++ [d]) ++ r) [] := by
          rw [List.append_assoc]; exact hWall
        obtain ⟨hWp, hWr⟩ := walk_split hW2
        rw [List.append_nil] at hWp
        have hpa2 : prevAfter false (ref ++ [d]) = false := by
          rw [prevAfter_last]; exact sfx_not_word hd
        rw [hpa2] at hWr
        have hFr : scanF rw kwK false r = r := walk_fix rw hWr
        have hGPr := (IH r.length (by omega)).2 r (Nat.le_refl _) hFr
        have hWpS : Walk kwK false (ref ++ [d]) (scanF rw kwJ false r) :=
          wtrans hgK hgJ hneKJ (Or.inl hKJ) rw hWp
        have hfin := fix_concat rw hWpS hpa2 hGPr
        rw [List.append_assoc] at hfin
        exact hfin
      · -- a fixed canonical slot of the scanning keyword exists
        have hFw : scanF rw kwK false w = w := by
          have h1 := hfix
          rw [hbw] at h1
          exact fix_split rw hWb hpb h1
        obtain ⟨hwst, hrwmk, hFmkrest⟩ := fix_step_inv hgK rw hR1 hmk hFw
        obtain ⟨k0, kt, hk⟩ := kw_cons hgK
        have hkword : ∀ c ∈ kwK, isWordChar c = true :=
          List.all_eq_true.mp hgK.2.2.1
        rcases List.append_eq_append_iff.mp hbw with ⟨m1, hbm, hmw⟩ |
          ⟨m1, hrm, hwm⟩
        · -- b extends past ref
          cases m1 with
          | nil =>
            exfalso
            rw [List.append_nil] at hbm
            rw [List.nil_append] at hmw
            rw [hwst, hk, List.cons_append] at hmw
            injection hmw with hdk _
            have hkw0 : isWordChar k0 = true :=
              hkword k0 (by rw [hk]; exact List.mem_cons_self _ _)
            rw [← hdk] at hkw0
            rw [sfx_not_word hd] at hkw0
            cases hkw0
          | cons d2 m1t =>
            simp only [List.cons_append, List.nil_append] at hmw
            injection hmw with hd2 hrm1w
            -- r = m1t ++ w, slot inside r
            have hbform : b = (ref ++ [d]) ++ m1t := by
              rw [hbm, ← hd2]
              simp [List.append_assoc, List.cons_append]
            have hpa2 : prevAfter false (ref ++ [d]) = false := by
              rw [prevAfter_last]; exact sfx_not_word hd
            rw [hbform] at hWb hpb
            obtain ⟨hWp, hWm1t⟩ := walk_split hWb
            rw [hpa2] at hWm1t
            rw [prevAfter_append, hpa2] at hpb
            have hWrs : Walk kwK false (ref ++ [d]) r := by
              rw [hrm1w]
              exact hWp
            have hFr : scanF rw kwK false r = r := by
              rw [hrm1w]
              exact fix_concat rw hWm1t hpb hFw
            have hGPr := (IH r.length (by omega)).2 r (Nat.le_refl _) hFr
            have hWrsS : Walk kwK false (ref ++ [d]) (scanF rw kwJ false r) :=
              wtrans hgK hgJ hneKJ (Or.inl hKJ) rw hWrs
            have hfin := fix_concat rw hWrsS hpa2 hGPr
            rw [List.append_assoc] at hfin
            exact hfin
        · -- b lies inside ref
          cases m1 with
          | nil =>
            exfalso
            rw [List.append_nil] at hrm
            rw [List.nil_append] at hwm
            rw [hwst, hk, List.cons_append] at hwm
            injection hwm with hdk _
            have hkw0 : isWordChar k0 = true :=
              hkword k0 (by rw [hk]; exact List.mem_cons_self _ _)
            rw [hdk] at hkw0
            rw [sfx_not_word hd] at hkw0
            cases hkw0
          | cons x m1t =>
            -- the scan keyword text is the final token of ref
            have heq2 : (x :: m1t) ++ ([d] ++ r) =
                kwK ++ ([' '] ++ (mk.ref ++ (mk.sfx ++ mk.rest))) := by
              rw [← hwm, ← hwst]
            have hxm : x :: m1t = kwK ∧
                ([d] ++ r) = [' '] ++ (mk.ref ++ (mk.sfx ++ mk.rest)) := by
              rcases List.append_eq_append_iff.mp heq2 with ⟨u, hku, hu⟩ |
                ⟨u, hmu, hu⟩
              · cases u with
                | nil =>
                  rw [List.append_nil] at hku
                  exact ⟨hku.symm, by simpa using hu⟩
                | cons y ut =>
                  exfalso
                  rw [List.cons_append] at hu
                  have hu2 : d :: r = y :: (ut ++
                      ([' '] ++ (mk.ref ++ (mk.sfx ++ mk.rest)))) := by
                    simpa using hu
                  injection hu2 with hdy _
                  have hyk : isWordChar y = true := by
                    apply hkword
                    rw [hku]
                    exact List.mem_append_right _ (List.mem_cons_self _ _)
                  rw [← hdy] at hyk
                  rw [sfx_not_word hd] at hyk
                  cases hyk
              · cases u with
                | nil =>
                  rw [List.append_nil] at hmu
                  exact ⟨hmu, by simpa using hu.symm⟩
                | cons y ut =>
                  exfalso
                  rw [List.cons_append] at hu
                  injection hu with hy _
                  have hyid : isIdChar y = true := by
                    apply refShape_all_id href
                    rw [hrm, hmu]
                    refine List.mem_append_right _ ?_
                    exact List.mem_append_right _ (List.mem_cons_self _ _)
                  rw [← hy] at hyid
                  exact absurd hyid (by decide)
            obtain ⟨hMK, hTK⟩ := hxm
            have hdsp : d = ' ' ∧ r = mk.ref ++ (mk.sfx ++ mk.rest) := by
              have h3 : d :: r = ' ' :: (mk.ref ++ (mk.sfx ++ mk.rest)) := by
                simpa using hTK
              injection h3 with h4 h5
              exact ⟨h4, h5⟩
            have hrefbk : ref = b ++ kwK := by rw [hrm, hMK]
            have hheadJ : ∀ j0 jt, kwJ = j0 :: jt → ¬ k0.toUpper = j0 := by
              intro j0 jt hj
              rw [kw_head_upper hgK hk]
              exact hKJ k0 j0 kt jt hk hj
            have hsts := scan_token_space hgJ rw hkword hk hheadJ r
            have hwhole : w = (kwK ++ [' ']) ++ r := by
              rw [hwst, hdsp.2]
              simp [List.append_assoc, List.cons_append, hdsp.1]
            have hklen : kwK.length = 4 ∨ 4 ≤ kwK.length := Or.inr hgK.1
            have hlw : w.length < n := by
              have h6 := congrArg List.length hwhole
              have h7 := congrArg List.length hrefbk
              simp [List.length_append] at h6 h7
              omega
            have hGPw := (IH w.length hlw).2 w (Nat.le_refl _) hFw
            rw [hwhole, hsts] at hGPw
            cases b with
            | nil =>
              rw [List.nil_append] at hrefbk
              rw [hrefbk, hdsp.1]
              rw [show kwK ++ ([' '] ++ scanF rw kwJ false r) =
                (kwK ++ [' ']) ++ scanF rw kwJ false r from
                (List.append_assoc _ _ _).symm]
              exact hGPw
            | cons b0 bt =>
              have hWbS : Walk kwK false (b0 :: bt)
                  (scanF rw kwJ false w) :=
                wtrans hgK hgJ hneKJ (Or.inl hKJ) rw hWb
              rw [hwhole, hsts] at hWbS
              have hOeq : ref ++ ([d] ++ scanF rw kwJ false r) =
                  (b0 :: bt) ++ ((kwK ++ [' ']) ++ scanF rw kwJ false r) := by
                rw [hrefbk, hdsp.1]
                simp [List.append_assoc]
              rw [hOeq]
              exact fix_concat rw hWbS hpb hGPw
  have hCL : ∀ ref sfx r, refShape ref = true → sfxOK sfx r →
      ref.length + sfx.length + r.length + 5 ≤ n →
      scanF rw kwK false (ref ++ (sfx ++ r)) = ref ++ (sfx ++ r) →
      scanF rw kwK false (rw ref ++ (sfx ++ scanF rw kwJ false r)) =
        rw ref ++ (sfx ++ scanF rw kwJ false r) := by
    intro ref sfx r href hsfx hmeas hfix
    have hc := hcore ref sfx r href hsfx hmeas hfix
    rcases hRSH ref href with hid | ⟨D, hD, hDid, L, hDL⟩
    · rw [hid]; exact hc
    · rw [hD]
      have hWD : Walk kwK false D (ref ++ (sfx ++ scanF rw kwJ false r)) :=
        walk_dotted hgK hDid (Or.inr ⟨L, hDL⟩) _
      have hpaD : prevAfter false D = false := by
        rw [hDL, prevAfter_last]
        decide
      rw [List.append_assoc]
      exact fix_concat rw hWD hpaD hc
  refine ⟨hCL, ?_⟩
  intro s hs hfixs
  rcases scanF_fsd rw kwJ false s with ⟨_, heJ⟩ | ⟨a, v, mj, hspJ, hWaJ, hpaJ, hmj, heJ⟩
  · rw [heJ]; exact hfixs
  rw [heJ]
  obtain ⟨tj, wsj, hvj, htj, hwsne, hwsall, hrefj, hsfxj⟩ := tryMatch_inv hmj
  obtain ⟨j0, jt, hj⟩ := kw_cons hgJ
  obtain ⟨k0, kt, hk⟩ := kw_cons hgK
  have hkword : ∀ c ∈ kwK, isWordChar c = true := List.all_eq_true.mp hgK.2.2.1
  have hjword : ∀ c ∈ kwJ, isWordChar c = true := List.all_eq_true.mp hgJ.2.2.1
  have htjword : ∀ x ∈ tj, isWordChar x = true := by
    intro x hx
    have hmem : x.toUpper ∈ kwJ := by
      rw [← htj]; exact List.mem_map_of_mem _ hx
    exact word_of_toUpper (hjword _ hmem) rfl
  have htjlen : tj.length = kwJ.length := by rw [← htj, List.length_map]
  have htjne : tj ≠ [] := by
    intro h0
    rw [h0] at htjlen
    have := hgJ.1
    simp at htjlen
    omega
  obtain ⟨t0, tt, ht0⟩ : ∃ t0 tt, tj = t0 :: tt := by
    cases tj with
    | nil => exact absurd rfl htjne
    | cons x xs => exact ⟨x, xs, rfl⟩
  have ht0j0 : t0.toUpper = j0 := by
    have := htj
    rw [ht0, hj, List.map_cons] at this
    injection this with h1 _
  have ht0id : isIdStart t0 = true := by
    refine idStart_of_toUpper ?_ ht0j0
    exact List.all_eq_true.mp hgJ.2.1 j0 (by rw [hj]; exact List.mem_cons_self _ _)
  have hheadJK : ∀ kk kkt, kwK = kk :: kkt → ¬ j0.toUpper = kk := by
    intro kk kkt hkk
    rw [kw_head_upper hgJ hj]
    exact (hKJ kk j0 kkt jt hkk hj).symm
  have hheadKJ : ∀ jj jjt, kwJ = jj :: jjt → ¬ k0.toUpper = jj := by
    intro jj jjt hjj
    rw [kw_head_upper hgK hk]
    exact hKJ k0 jj kt jjt hk hjj
  obtain ⟨c, cs, hvc⟩ : ∃ c cs, v = c :: cs := by
    cases v with
    | nil =>
      exfalso
      rw [hj] at hmj
      simp [tryMatch, matchKw] at hmj
    | cons c cs => exact ⟨c, cs, rfl⟩
  have hSv : scanF rw kwJ false v =
      (kwJ ++ ' ' :: rw mj.ref ++ mj.sfx) ++ scanF rw kwJ false mj.rest := by
    rw [hvc]
    exact scanF_match rw kwJ c cs mj (by rw [← hvc]; exact hmj)
  have hEassoc : (kwJ ++ ' ' :: rw mj.ref ++ mj.sfx) ++ scanF rw kwJ false mj.rest =
      (kwJ ++ [' ']) ++ (rw mj.ref ++ (mj.sfx ++ scanF rw kwJ false mj.rest)) := by
    simp [List.append_assoc, List.cons_append]
  have hslen := congrArg List.length hspJ
  have hvlen := congrArg List.length hvj
  simp only [List.length_append] at hslen hvlen
  have hwsjlen : 1 ≤ wsj.length := List.length_pos.mpr hwsne
  have hpaTok : prevAfter false (kwJ ++ [' ']) = false := by
    rw [prevAfter_last]; decide
  have hpws : prevAfter false (tj ++ wsj) = false := by
    rw [prevAfter_append]
    exact prevAfter_ws (List.all_eq_true.mp hwsall) hwsne _
  rcases scanF_fsd rw kwK false s with ⟨hWsK, _⟩ | ⟨b, w, mk, hbwK, hWbK, hpbK, hmk, _⟩
  · -- the fixed scan never matches anywhere in s
    rw [hspJ] at hWsK
    obtain ⟨hWaK0, hWvK⟩ := walk_split hWsK
    rw [List.append_nil] at hWaK0
    rw [hpaJ] at hWvK
    have hv2 : v = (tj ++ wsj) ++ (mj.ref ++ (mj.sfx ++ mj.rest)) := by
      rw [hvj]; simp [List.append_assoc]
    rw [hv2] at hWvK
    obtain ⟨_, hWRK⟩ := walk_split hWvK
    have hpws : prevAfter false (tj ++ wsj) = false := by
      rw [prevAfter_append]
      exact prevAfter_ws (List.all_eq_true.mp hwsall) hwsne _
    rw [hpws] at hWRK
    have hFREST : scanF rw kwK false (mj.ref ++ (mj.sfx ++ mj.rest)) =
        mj.ref ++ (mj.sfx ++ mj.rest) := walk_fix rw hWRK
    have hmeasR : mj.ref.length + mj.sfx.length + mj.rest.length + 5 ≤ n := by
      have h5 := hgJ.1
      omega
    have hCLcall := hCL mj.ref mj.sfx mj.rest hrefj hsfxj hmeasR hFREST
    have hFE2 := fix_concat rw (walk_token_space hgK hjword hj hheadJK
      (rw mj.ref ++ (mj.sfx ++ scanF rw kwJ false mj.rest))) hpaTok hCLcall
    have hWaKS : Walk kwK false a (scanF rw kwJ false v) :=
      wtrans hgK hgJ hneKJ (Or.inl hKJ) rw hWaK0
    rw [hSv, hEassoc] at hWaKS
    rw [hEassoc]
    exact fix_concat rw hWaKS hpaJ hFE2
  · -- s has a fixed canonical slot of the scanning keyword
    have hFw : scanF rw kwK false w = w := by
      have h1 := hfixs
      rw [hbwK] at h1
      exact fix_split rw hWbK hpbK h1
    obtain ⟨hwst, hrwmk, hFmkrest⟩ := fix_step_inv hgK rw hR1 hmk hFw
    obtain ⟨kt2, ws2, _, _, _, _, hrefmk, hsfxmk⟩ := tryMatch_inv hmk
    have hal : a ++ v = b ++ w := hspJ.symm.trans hbwK
    have hwlen := congrArg List.length hbwK
    simp only [List.length_append] at hwlen
    rcases List.append_eq_append_iff.mp hal with ⟨mid, hbmid, hvmid⟩ |
      ⟨mid, hamid, hwmid⟩
    · -- the pass slot comes first (or they coincide)
      have hpm : prevAfter false mid = false := by
        have h1 := hpbK
        rw [hbmid, prevAfter_append, hpaJ] at h1
        exact h1
      have hveq : mid ++ w = tj ++ (wsj ++ (mj.ref ++ (mj.sfx ++ mj.rest))) :=
        hvmid.symm.trans hvj
      rcases List.append_eq_append_iff.mp hveq with ⟨u, htjmu, hu⟩ | ⟨u, hmidu, hu⟩
      · -- mid is a proper prefix of the keyword text: impossible
        exfalso
        cases mid with
        | nil =>
          rw [List.nil_append] at hvmid
          have hhead : c = k0 := by
            have h1 : v = w := hvmid
            rw [hvc, hwst, hk, List.cons_append] at h1
            have h2 := congrArg List.head? h1
            simpa using h2
          have ht0c : t0 = c := by
            have h1 := hvj
            rw [hvc, ht0, List.cons_append] at h1
            have h2 := congrArg List.head? h1
            simpa using h2.symm
          have h5 := ht0j0
          rw [ht0c, hhead, kw_head_upper hgK hk] at h5
          exact hKJ k0 j0 kt jt hk hj h5
        | cons m0 mt =>
          have hmw : (m0 :: mt) ≠ [] := by simp
          have : prevAfter false (m0 :: mt) = true := by
            refine prevAfter_word hmw ?_ false
            intro y hy
            refine htjword y ?_
            rw [htjmu]
            exact List.mem_append_left _ hy
          rw [this] at hpm
          cases hpm
      · -- mid = tj ++ u : continue aligning u against the whitespace
        have hmain : ∀ u2 : List Char, mid = tj ++ (wsj ++ u2) →
            mj.ref ++ (mj.sfx ++ mj.rest) = u2 ++ w →
            scanF rw kwK false (a ++ ((kwJ ++ ' ' :: rw mj.ref ++ mj.sfx) ++
              scanF rw kwJ false mj.rest)) =
            a ++ ((kwJ ++ ' ' :: rw mj.ref ++ mj.sfx) ++
              scanF rw kwJ false mj.rest) := by
          intro u2 hmid2 hru2
          rcases List.append_eq_append_iff.mp hru2 with ⟨u3, hm3u, hu3w⟩ |
            ⟨u3, hmru, hwu⟩
          · -- u2 = mj.ref ++ u3 : the slot lies inside the pass remainder
            rcases hsfxj with ⟨hs0, hr0⟩ | ⟨dj, hsd, hdj⟩
            · exfalso
              rw [hs0, hr0] at hu3w
              have h1 := congrArg List.length hu3w
              have h2 := congrArg List.length hwst
              simp [List.length_append] at h1 h2
              have h3 := hgK.1
              omega
            · rw [hsd] at hu3w
              cases u3 with
              | nil =>
                exfalso
                rw [List.nil_append] at hu3w
                have h1 := hwst
                rw [hk, List.cons_append] at h1
                rw [← hu3w] at h1
                have h2 : dj = k0 := by
                  have h3 := congrArg List.head? h1
                  simpa using h3
                have hkw0 : isWordChar k0 = true :=
                  hkword k0 (by rw [hk]; exact List.mem_cons_self _ _)
                rw [← h2, sfx_not_word hdj] at hkw0
                cases hkw0
              | cons dj2 u3t =>
                simp only [List.cons_append, List.nil_append] at hu3w
                have hdd : dj = dj2 := by
                  have h9 := congrArg List.head? hu3w
                  simpa using h9
                subst hdd
                have hresteq : mj.rest = u3t ++ w := by
                  have h9 := congrArg List.tail hu3w
                  simpa using h9
                have hbfull : b = (a ++ ((tj ++ wsj) ++ (mj.ref ++ [dj]))) ++ u3t := by
                  rw [hbmid, hmid2, hm3u]
                  simp [List.append_assoc, List.cons_append]
                rw [hbfull] at hWbK hpbK
                obtain ⟨hWP1, hWu3t⟩ := walk_split hWbK
                obtain ⟨hWa1, hWrest1⟩ := walk_split hWP1
                rw [hpaJ] at hWrest1
                obtain ⟨_, hWrefd0⟩ := walk_split hWrest1
                rw [hpws] at hWrefd0
                have hWrefd : Walk kwK false (mj.ref ++ [dj]) mj.rest := by
                  rw [hresteq]; exact hWrefd0
                have hpP1 : prevAfter false
                    (a ++ ((tj ++ wsj) ++ (mj.ref ++ [dj]))) = false := by
                  rw [show a ++ ((tj ++ wsj) ++ (mj.ref ++ [dj])) =
                    (a ++ ((tj ++ wsj) ++ mj.ref)) ++ [dj] from by
                      simp [List.append_assoc]]
                  rw [prevAfter_last]
                  exact sfx_not_word hdj
                rw [prevAfter_append, hpP1] at hpbK
                rw [hpP1] at hWu3t
                have hFrest : scanF rw kwK false mj.rest = mj.rest := by
                  rw [hresteq]
                  exact fix_concat rw hWu3t hpbK hFw
                have hreflen : 2 ≤ mj.ref.length := refShape_len hrefj
                have hrestlen : mj.rest.length < n := by
                  have h5 := hgJ.1
                  omega
                have hGPrest := (IH mj.rest.length hrestlen).2 mj.rest
                  (Nat.le_refl _) hFrest
                have hWrefdS : Walk kwK false (mj.ref ++ [dj])
                    (scanF rw kwJ false mj.rest) :=
                  wtrans hgK hgJ hneKJ (Or.inl hKJ) rw hWrefd
                have hparefd : prevAfter false (mj.ref ++ [dj]) = false := by
                  rw [prevAfter_last]; exact sfx_not_word hdj
                have hFinner := fix_concat rw hWrefdS hparefd hGPrest
                have hFtail : scanF rw kwK false
                    (rw mj.ref ++ (mj.sfx ++ scanF rw kwJ false mj.rest)) =
                    rw mj.ref ++ (mj.sfx ++ scanF rw kwJ false mj.rest) := by
                  rw [hsd]
                  rcases hRSH mj.ref hrefj with hid | ⟨D, hD, hDid, LD, hDL⟩
                  · rw [hid]
                    rw [show mj.ref ++ ([dj] ++ scanF rw kwJ false mj.rest) =
                      (mj.ref ++ [dj]) ++ scanF rw kwJ false mj.rest from by
                        simp [List.append_assoc]]
                    exact hFinner
                  · rw [hD]
                    have hWD : Walk kwK false D
                        ((mj.ref ++ [dj]) ++ scanF rw kwJ false mj.rest) :=
                      walk_dotted hgK hDid (Or.inr ⟨LD, hDL⟩) _
                    have hpaD : prevAfter false D = false := by
                      rw [hDL, prevAfter_last]; decide
                    have h8 := fix_concat rw hWD hpaD hFinner
                    rw [show (D ++ mj.ref) ++ ([dj] ++ scanF rw kwJ false mj.rest) =
                      D ++ ((mj.ref ++ [dj]) ++ scanF rw kwJ false mj.rest) from by
                        simp [List.append_assoc]]
                    exact h8
                have hFE := fix_concat rw (walk_token_space hgK hjword hj hheadJK
                  (rw mj.ref ++ (mj.sfx ++ scanF rw kwJ false mj.rest))) hpaTok hFtail
                have h9 : ((tj ++ wsj) ++ (mj.ref ++ [dj])) ++ (u3t ++ w) =
                    mid ++ w := by
                  rw [hmid2, hm3u]
                  simp [List.append_assoc, List.cons_append]
                rw [h9, ← hvmid] at hWa1
                have hWaS : Walk kwK false a (scanF rw kwJ false v) :=
                  wtrans hgK hgJ hneKJ (Or.inl hKJ) rw hWa1
                rw [hSv, hEassoc] at hWaS
                rw [hEassoc]
                exact fix_concat rw hWaS hpaJ hFE
          · -- mj.ref = u2 ++ u3 : the slot starts inside the captured reference
            have hu3id : ∀ x ∈ u3, isIdChar x = true := by
              intro x hx
              apply refShape_all_id hrefj
              rw [hmru]
              exact List.mem_append_right _ hx
            have hcomb : u3 ++ (mj.sfx ++ mj.rest) =
                kwK ++ ([' '] ++ (mk.ref ++ (mk.sfx ++ mk.rest))) :=
              hwu.symm.trans hwst
            have hkey : u3 = kwK ∧
                mj.sfx ++ mj.rest = ' ' :: (mk.ref ++ (mk.sfx ++ mk.rest)) := by
              rcases List.append_eq_append_iff.mp hcomb with ⟨e, hke, hse⟩ |
                ⟨e, hue, hre⟩
              · cases e with
                | nil =>
                  rw [List.append_nil] at hke
                  rw [List.nil_append] at hse
                  exact ⟨hke.symm, by simpa using hse⟩
                | cons e0 et =>
                  exfalso
                  have he0w : isWordChar e0 = true := by
                    refine hkword e0 ?_
                    rw [hke]
                    exact List.mem_append_right _ (List.mem_cons_self _ _)
                  rcases hsfxj with ⟨hs0, hr0⟩ | ⟨dj, hsd, hdj⟩
                  · rw [hs0, hr0] at hse
                    simp at hse
                  · rw [hsd] at hse
                    have hde : dj = e0 := by
                      have h9 := congrArg List.head? hse
                      simpa using h9
                    have h8 := sfx_not_word hdj
                    rw [hde, he0w] at h8
                    cases h8
              · cases e with
                | nil =>
                  rw [List.append_nil] at hue
                  rw [List.nil_append] at hre
                  exact ⟨hue, by simpa using hre.symm⟩
                | cons e0 et =>
                  exfalso
                  have he0id : isIdChar e0 = true := by
                    refine hu3id e0 ?_
                    rw [hue]
                    exact List.mem_append_right _ (List.mem_cons_self _ _)
                  have h9 : ' ' = e0 := by
                    have h8 := congrArg List.head? hre
                    simpa using h8
                  rw [← h9] at he0id
                  exact absurd he0id (by decide)
            obtain ⟨hu3k, hsrest⟩ := hkey
            rcases hsfxj with ⟨hs0, hr0⟩ | ⟨dj, hsd, hdj⟩
            · exfalso
              rw [hs0, hr0] at hsrest
              simp at hsrest
            · rw [hsd] at hsrest
              have hdsp : dj = ' ' := by
                have h9 := congrArg List.head? hsrest
                simpa using h9
              have hlw2 : w.length < n := by
                have h1 := congrArg List.length hvmid
                have h2 := congrArg List.length hmid2
                simp only [List.length_append] at h1 h2
                have h3 := hgJ.1
                omega
              have hGPw := (IH w.length hlw2).2 w (Nat.le_refl _) hFw
              have hw2 : w = (kwK ++ [' ']) ++ mj.rest := by
                rw [hwu, hu3k, hsd, hdsp]
                simp [List.append_assoc]
              rw [hw2] at hGPw
              have hsts := scan_token_space hgJ rw hkword hk hheadKJ mj.rest
              rw [hsts] at hGPw
              have hu2id : ∀ x ∈ u2, isIdChar x = true := by
                intro x hx
                apply refShape_all_id hrefj
                rw [hmru]
                exact List.mem_append_left _ hx
              have hu2dot : u2 = [] ∨ ∃ L2, u2 = L2 ++ ['.'] := by
                rcases List.eq_nil_or_concat u2 with h0 | ⟨L2, z, hz⟩
                · exact Or.inl h0
                · rw [List.concat_eq_append] at hz
                  have hb2 : b = (a ++ (tj ++ (wsj ++ L2))) ++ [z] := by
                    rw [hbmid, hmid2, hz]
                    simp [List.append_assoc]
                  have hpz := hpbK
                  rw [hb2, prevAfter_last] at hpz
                  have hzid : isIdChar z = true := by
                    apply refShape_all_id hrefj
                    rw [hmru]
                    refine List.mem_append_left _ ?_
                    rw [hz]
                    exact List.mem_append_right _ (List.mem_cons_self _ _)
                  have hzdot : z = '.' := id_not_word_dot hzid hpz
                  exact Or.inr ⟨L2, by rw [hz, hzdot]⟩
              have hPex : ∃ P, rw mj.ref = P ++ kwK ∧
                  (∀ x ∈ P, isIdChar x = true) ∧
                  (P = [] ∨ ∃ L, P = L ++ ['.']) := by
                rcases hRSH mj.ref hrefj with hid | ⟨D, hD, hDid, LD, hDL⟩
                · refine ⟨u2, ?_, hu2id, hu2dot⟩
                  rw [hid, hmru, hu3k]
                · refine ⟨D ++ u2, ?_, ?_, ?_⟩
                  · rw [hD, hmru, hu3k, List.append_assoc]
                  · intro x hx
                    rcases List.mem_append.mp hx with h | h
                    · exact hDid x h
                    · exact hu2id x h
                  · rcases hu2dot with h0 | ⟨L2, hL2⟩
                    · rw [h0, List.append_nil]
                      exact Or.inr ⟨LD, hDL⟩
                    · exact Or.inr ⟨D ++ L2, by rw [hL2]; simp [List.append_assoc]⟩
              obtain ⟨P, hrwP, hPid, hPdot⟩ := hPex
              have hWP : Walk kwK false P
                  ((kwK ++ [' ']) ++ scanF rw kwJ false mj.rest) :=
                walk_dotted hgK hPid hPdot _
              have hpaP : prevAfter false P = false := by
                rcases hPdot with h0 | ⟨L, hL⟩
                · rw [h0]; rfl
                · rw [hL, prevAfter_last]; decide
              have hFmid := fix_concat rw hWP hpaP hGPw
              have hFtail : scanF rw kwK false
                  (rw mj.ref ++ (mj.sfx ++ scanF rw kwJ false mj.rest)) =
                  rw mj.ref ++ (mj.sfx ++ scanF rw kwJ false mj.rest) := by
                rw [hsd, hdsp, hrwP]
                rw [show (P ++ kwK) ++ ([' '] ++ scanF rw kwJ false mj.rest) =
                  P ++ ((kwK ++ [' ']) ++ scanF rw kwJ false mj.rest) from by
                    simp [List.append_assoc]]
                exact hFmid
              have hFE := fix_concat rw (walk_token_space hgK hjword hj hheadJK
                (rw mj.ref ++ (mj.sfx ++ scanF rw kwJ false mj.rest)))
                hpaTok hFtail
              have hWa0 := hWbK
              rw [hbmid] at hWa0
              obtain ⟨hWa1, _⟩ := walk_split hWa0
              rw [← hvmid] at hWa1
              have hWaS : Walk kwK false a (scanF rw kwJ false v) :=
                wtrans hgK hgJ hneKJ (Or.inl hKJ) rw hWa1
              rw [hSv, hEassoc] at hWaS
              rw [hEassoc]
              exact fix_concat rw hWaS hpaJ hFE
        rcases List.append_eq_append_iff.mp hu with ⟨u2, hwu2, hu2⟩ | ⟨u2, hwu2, hu2⟩
        · exact hmain u2 (by rw [hmidu, hwu2]) hu2
        · cases u2 with
          | nil =>
            rw [List.append_nil] at hwu2
            refine hmain [] (by rw [hmidu, hwu2, List.append_nil]) ?_
            rw [List.nil_append] at hu2 ⊢
            exact hu2.symm
          | cons y ut =>
            exfalso
            have hyws : isWsChar y = true := by
              refine List.all_eq_true.mp hwsall y ?_
              rw [hwu2]
              exact List.mem_append_right _ (List.mem_cons_self _ _)
            rw [List.cons_append] at hu2
            have h1 : w = y :: (ut ++ (mj.ref ++ (mj.sfx ++ mj.rest))) := hu2
            rw [hwst, hk, List.cons_append] at h1
            have h2 : k0 = y := by
              have h3 := congrArg List.head? h1
              simpa using h3
            have hkw0 : isWordChar k0 = true :=
              hkword k0 (by rw [hk]; exact List.mem_cons_self _ _)
            rw [h2, ws_not_word hyws] at hkw0
            cases hkw0
    · -- the fixed slot comes first
      have ht0w : isWordChar t0 = true := by
        refine htjword t0 ?_
        rw [ht0]
        exact List.mem_cons_self _ _
      have hwv : mid ++ v = kwK ++ ([' '] ++ (mk.ref ++ (mk.sfx ++ mk.rest))) :=
        hwmid.symm.trans hwst
      rcases List.append_eq_append_iff.mp hwv with ⟨e, hke, hve⟩ | ⟨e, hme, hre⟩
      · -- mid would be a proper prefix of the scanning keyword: impossible
        exfalso
        rcases List.eq_nil_or_concat mid with hmid0 | ⟨L, z, hz⟩
        · rw [hmid0, List.nil_append] at hke
          have h3 : tj ++ (wsj ++ (mj.ref ++ (mj.sfx ++ mj.rest))) =
              kwK ++ ([' '] ++ (mk.ref ++ (mk.sfx ++ mk.rest))) := by
            rw [hke]
            exact hvj.symm.trans hve
          rw [ht0, hk] at h3
          have h1 : t0 = k0 := by
            have h2 := congrArg List.head? h3
            simpa using h2
          have h5 := ht0j0
          rw [h1, kw_head_upper hgK hk] at h5
          exact hKJ k0 j0 kt jt hk hj h5
        · rw [List.concat_eq_append] at hz
          have hzw : isWordChar z = true := by
            refine hkword z ?_
            rw [hke, hz]
            exact List.mem_append_left _
              (List.mem_append_right _ (List.mem_cons_self _ _))
          have ha2 : a = (b ++ L) ++ [z] := by
            rw [hamid, hz]
            simp [List.append_assoc]
          have h5 := hpaJ
          rw [ha2, prevAfter_last, hzw] at h5
          cases h5
      · -- mid = kwK ++ e : align e against the space after the keyword
        cases e with
        | nil =>
          exfalso
          rw [List.nil_append] at hre
          have h3 : tj ++ (wsj ++ (mj.ref ++ (mj.sfx ++ mj.rest))) =
              [' '] ++ (mk.ref ++ (mk.sfx ++ mk.rest)) :=
            hvj.symm.trans hre.symm
          rw [ht0] at h3
          have h1 : t0 = ' ' := by
            have h2 := congrArg List.head? h3
            simpa using h2
          have h5 := ht0w
          rw [h1] at h5
          exact absurd h5 (by decide)
        | cons e1 u2a =>
          have he1 : e1 = ' ' := by
            have h2 := congrArg List.head? hre
            simpa using h2.symm
          have hrest2 : mk.ref ++ (mk.sfx ++ mk.rest) = u2a ++ v := by
            have h2 := congrArg List.tail hre
            simpa using h2
          have hmid2x : mid = kwK ++ (' ' :: u2a) := by
            rw [hme, he1]
          have hgoalE : a ++ ((kwJ ++ ' ' :: rw mj.ref ++ mj.sfx) ++
              scanF rw kwJ false mj.rest) =
              b ++ (mid ++ scanF rw kwJ false v) := by
            rw [← hSv, hamid]
            simp [List.append_assoc]
          have hWbv := hWbK
          rw [hwmid] at hWbv
          have hWbS : Walk kwK false b (mid ++ scanF rw kwJ false v) :=
            wtrans_mid hgK hgJ hneKJ (Or.inl hKJ) rw hWbv
          rcases List.append_eq_append_iff.mp hrest2 with ⟨u3, hu2r, hu3v⟩ |
            ⟨u3, hru3, hvu3⟩
          · -- the pass match lies inside the slot's remainder
            rcases hsfxmk with ⟨hs0, hr0⟩ | ⟨d2, hsd2, hd2⟩
            · exfalso
              rw [hs0, hr0] at hu3v
              have h2 := congrArg List.length hu3v
              simp only [List.length_append, List.length_nil] at h2
              have h1 : v = [] := List.length_eq_zero.mp (by omega)
              rw [h1] at hvc
              cases hvc
            · rw [hsd2] at hu3v
              cases u3 with
              | nil =>
                exfalso
                rw [List.nil_append] at hu3v
                have h3 : tj ++ (wsj ++ (mj.ref ++ (mj.sfx ++ mj.rest))) =
                    [d2] ++ mk.rest := hvj.symm.trans hu3v.symm
                rw [ht0] at h3
                have h1 : t0 = d2 := by
                  have h2 := congrArg List.head? h3
                  simpa using h2
                have h5 := ht0w
                rw [h1, sfx_not_word hd2] at h5
                cases h5
              | cons d3 u3t =>
                simp only [List.cons_append, List.nil_append] at hu3v
                have hdd : d2 = d3 := by
                  have h2 := congrArg List.head? hu3v
                  simpa using h2
                have hresteq : mk.rest = u3t ++ v := by
                  have h2 := congrArg List.tail hu3v
                  simpa using h2
                have hrlen : mk.rest.length < n := by
                  have h1 := congrArg List.length hwst
                  have h2 := congrArg List.length hbwK
                  simp only [List.length_append, List.length_cons,
                    List.length_nil] at h1 h2
                  have h3 := hgK.1
                  omega
                have hGPrest := (IH mk.rest.length hrlen).2 mk.rest
                  (Nat.le_refl _) hFmkrest
                have ha3 : a = (b ++ ((kwK ++ [' ']) ++ (mk.ref ++ [d3]))) ++
                    u3t := by
                  rw [hamid, hmid2x, hu2r]
                  simp [List.append_assoc, List.cons_append]
                have hWJ1 := hWaJ
                rw [ha3] at hWJ1
                obtain ⟨_, hWJ2⟩ := walk_split hWJ1
                have hpa3 : prevAfter false
                    (b ++ ((kwK ++ [' ']) ++ (mk.ref ++ [d3]))) = false := by
                  rw [show b ++ ((kwK ++ [' ']) ++ (mk.ref ++ [d3])) =
                    (b ++ ((kwK ++ [' ']) ++ mk.ref)) ++ [d3] from by
                      simp [List.append_assoc]]
                  rw [prevAfter_last, ← hdd]
                  exact sfx_not_word hd2
                rw [hpa3] at hWJ2
                have hpau3t : prevAfter false u3t = false := by
                  rcases List.eq_nil_or_concat u3t with h0 | ⟨L, z, hzz⟩
                  · rw [h0]; rfl
                  · rw [List.concat_eq_append] at hzz
                    have ha4 : a = ((b ++ ((kwK ++ [' ']) ++ (mk.ref ++ [d3]))) ++
                        L) ++ [z] := by
                      rw [ha3, hzz]
                      simp [List.append_assoc]
                    have h5 := hpaJ
                    rw [ha4, prevAfter_last] at h5
                    rw [hzz, prevAfter_last]
                    exact h5
                have hsj3 : scanF rw kwJ false mk.rest =
                    u3t ++ scanF rw kwJ false v := by
                  rw [hresteq, walk_scan rw hWJ2, hpau3t]
                rw [hsj3] at hGPrest
                have hslot := fix_canonical_slot hgK rw hrefmk
                  (Or.inr ⟨d2, rfl, hd2⟩) hrwmk hGPrest
                have hmidE : mid ++ scanF rw kwJ false v =
                    kwK ++ ([' '] ++ (mk.ref ++ ([d2] ++
                      (u3t ++ scanF rw kwJ false v)))) := by
                  rw [hmid2x, hu2r, hdd]
                  simp [List.append_assoc, List.cons_append]
                rw [← hmidE] at hslot
                rw [hgoalE]
                exact fix_concat rw hWbS hpbK hslot
          · -- the pass match starts inside the slot's captured reference
            have hu3id : ∀ x ∈ u3, isIdChar x = true := by
              intro x hx
              apply refShape_all_id hrefmk
              rw [hru3]
              exact List.mem_append_right _ hx
            have hcomb2 : u3 ++ (mk.sfx ++ mk.rest) =
                tj ++ (wsj ++ (mj.ref ++ (mj.sfx ++ mj.rest))) :=
              hvu3.symm.trans hvj
            have hkey2 : u3 = tj ∧
                mk.sfx ++ mk.rest = wsj ++ (mj.ref ++ (mj.sfx ++ mj.rest)) := by
              rcases List.append_eq_append_iff.mp hcomb2 with ⟨e2, hte, hse⟩ |
                ⟨e2, hue, hre2⟩
              · cases e2 with
                | nil =>
                  rw [List.append_nil] at hte
                  rw [List.nil_append] at hse
                  exact ⟨hte.symm, hse⟩
                | cons e0 et2 =>
                  exfalso
                  have he0w : isWordChar e0 = true := by
                    refine htjword e0 ?_
                    rw [hte]
                    exact List.mem_append_right _ (List.mem_cons_self _ _)
                  rcases hsfxmk with ⟨hs0, hr0⟩ | ⟨d2, hsd2, hd2⟩
                  · rw [hs0, hr0] at hse
                    simp at hse
                  · rw [hsd2] at hse
                    have hde : d2 = e0 := by
                      have h9 := congrArg List.head? hse
                      simpa using h9
                    have h8 := sfx_not_word hd2
                    rw [hde, he0w] at h8
                    cases h8
              · cases e2 with
                | nil =>
                  rw [List.append_nil] at hue
                  rw [List.nil_append] at hre2
                  exact ⟨hue, hre2.symm⟩
                | cons e0 et2 =>
                  exfalso
                  have he0id : isIdChar e0 = true := by
                    refine hu3id e0 ?_
                    rw [hue]
                    exact List.mem_append_right _ (List.mem_cons_self _ _)
                  obtain ⟨w0, wt, hw0⟩ : ∃ w0 wt, wsj = w0 :: wt := by
                    cases wsj with
                    | nil => exact absurd rfl hwsne
                    | cons w0 wt => exact ⟨w0, wt, rfl⟩
                  rw [hw0] at hre2
                  have h9 : w0 = e0 := by
                    have h8 := congrArg List.head? hre2
                    simpa using h8
                  have hwsw0 : isWsChar w0 = true := by
                    refine List.all_eq_true.mp hwsall w0 ?_
                    rw [hw0]
                    exact List.mem_cons_self _ _
                  have h7 := ws_not_id hwsw0
                  rw [h9, he0id] at h7
                  cases h7
            obtain ⟨hu3t, hsrest2⟩ := hkey2
            have hrefmk2 : mk.ref = u2a ++ tj := by rw [hru3, hu3t]
            rcases hsfxmk with ⟨hs0, hr0⟩ | ⟨d2, hsd2, hd2⟩
            · exfalso
              rw [hs0, hr0] at hsrest2
              have h2 := congrArg List.length hsrest2
              simp only [List.length_append, List.length_nil] at h2
              omega
            · rw [hsd2] at hsrest2
              obtain ⟨w0, wt, hw0⟩ : ∃ w0 wt, wsj = w0 :: wt := by
                cases wsj with
                | nil => exact absurd rfl hwsne
                | cons w0 wt => exact ⟨w0, wt, rfl⟩
              rw [hw0] at hsrest2
              have hrest3 : mk.rest = wt ++ (mj.ref ++ (mj.sfx ++ mj.rest)) := by
                have h2 := congrArg List.tail hsrest2
                simpa using h2
              have hwtws : ∀ x ∈ wt, isWsChar x = true := by
                intro x hx
                refine List.all_eq_true.mp hwsall x ?_
                rw [hw0]
                exact List.mem_cons_of_mem _ hx
              have hWwt : Walk kwK false wt (mj.ref ++ (mj.sfx ++ mj.rest)) :=
                walk_ws hgK wt hwtws false _
              have hpawt : prevAfter false wt = false := by
                rcases List.eq_nil_or_concat wt with h0 | ⟨L, z, hzz⟩
                · rw [h0]; rfl
                · rw [List.concat_eq_append] at hzz
                  rw [hzz, prevAfter_last]
                  refine ws_not_word (hwtws z ?_)
                  rw [hzz]
                  exact List.mem_append_right _ (List.mem_cons_self _ _)
              have hFRJ : scanF rw kwK false (mj.ref ++ (mj.sfx ++ mj.rest)) =
                  mj.ref ++ (mj.sfx ++ mj.rest) := by
                refine fix_split rw hWwt hpawt ?_
                rw [← hrest3]
                exact hFmkrest
              have hmeas2 : mj.ref.length + mj.sfx.length + mj.rest.length + 5 ≤
                  n := by
                have h3 := hgJ.1
                omega
              have hCLc := hCL mj.ref mj.sfx mj.rest hrefj hsfxj hmeas2 hFRJ
              have hu2id : ∀ x ∈ u2a, isIdChar x = true := by
                intro x hx
                apply refShape_all_id hrefmk
                rw [hrefmk2]
                exact List.mem_append_left _ hx
              have hu2dot : u2a = [] ∨ ∃ L, u2a = L ++ ['.'] := by
                rcases List.eq_nil_or_concat u2a with h0 | ⟨L, z, hzz⟩
                · exact Or.inl h0
                · rw [List.concat_eq_append] at hzz
                  have ha4 : a = ((b ++ (kwK ++ [' '])) ++ L) ++ [z] := by
                    rw [hamid, hmid2x, hzz]
                    simp [List.append_assoc, List.cons_append]
                  have h5 := hpaJ
                  rw [ha4, prevAfter_last] at h5
                  have hzid : isIdChar z = true := by
                    refine hu2id z ?_
                    rw [hzz]
                    exact List.mem_append_right _ (List.mem_cons_self _ _)
                  exact Or.inr ⟨L, by rw [hzz, id_not_word_dot hzid h5]⟩
              have hrefJg : refShape (u2a ++ kwJ) = true := by
                refine refShape_iff.mpr ?_
                obtain he0 | ⟨e1b, ets, hets⟩ :
                    u2a = [] ∨ ∃ x xs, u2a = x :: xs := by
                  cases u2a with
                  | nil => exact Or.inl rfl
                  | cons x xs => exact Or.inr ⟨x, xs, rfl⟩
                · refine ⟨j0, jt, ?_, ?_, ?_, ?_⟩
                  · rw [he0, List.nil_append, hj]
                  · exact List.all_eq_true.mp hgJ.2.1 j0
                      (by rw [hj]; exact List.mem_cons_self _ _)
                  · intro h0
                    have h1 := hgJ.1
                    rw [hj, h0] at h1
                    simp at h1
                  · refine List.all_eq_true.mpr ?_
                    intro x hx
                    exact word_idChar (hjword x
                      (by rw [hj]; exact List.mem_cons_of_mem _ hx))
                · refine ⟨e1b, ets ++ kwJ, ?_, ?_, ?_, ?_⟩
                  · rw [hets]; simp
                  · obtain ⟨c9, cs9, hceq, hstart9, _, _⟩ :=
                      refShape_iff.mp hrefmk
                    have h8 : mk.ref = e1b :: (ets ++ tj) := by
                      rw [hrefmk2, hets]
                      simp
                    have h9 : c9 = e1b := by
                      have h7 := congrArg List.head? (hceq.symm.trans h8)
                      simpa using h7
                    rw [← h9]
                    exact hstart9
                  · simp [hj]
                  · refine List.all_eq_true.mpr ?_
                    intro x hx
                    rcases List.mem_append.mp hx with h | h
                    · exact hu2id x
                        (by rw [hets]; exact List.mem_cons_of_mem _ h)
                    · exact word_idChar (hjword x h)
              have hstab : rw (u2a ++ kwJ) = u2a ++ kwJ := by
                have h3 := hrwmk
                rw [hrefmk2] at h3
                have h4 := hrefmk
                rw [hrefmk2] at h4
                exact hR3 u2a tj kwJ hu2dot h4 hrefJg htjword hjword h3
              have hslot := fix_canonical_slot hgK rw hrefJg
                (Or.inr ⟨' ', rfl, by decide⟩) hstab hCLc
              have hmidE : mid ++ scanF rw kwJ false v =
                  kwK ++ ([' '] ++ ((u2a ++ kwJ) ++ ([' '] ++ (rw mj.ref ++
                    (mj.sfx ++ scanF rw kwJ false mj.rest))))) := by
                rw [hmid2x, hSv]
                simp [List.append_assoc, List.cons_append]
              rw [← hmidE] at hslot
              rw [hgoalE]
              exact fix_concat rw hWbS hpbK hslot

/-! ### The rewrite properties of `newTableRef` for identifier contexts -/

theorem idStart_word {c : Char} (h : isIdStart c = true) : isWordChar c = true := by
  simp [isIdStart] at h
  simp [isWordChar]
  tauto

theorem identTok_word {l : List Char} (h : identTok l = true) :
    ∀ c ∈ l, isWordChar c = true := by
  cases l with
  | nil => simp [identTok] at h
  | cons c cs =>
    simp only [identTok, Bool.and_eq_true] at h
    intro x hx
    rcases List.mem_cons.mp hx with rfl | hx2
    · exact idStart_word h.1
    · exact List.all_eq_true.mp h.2 x hx2

theorem identTok_ne_nil {l : List Char} (h : identTok l = true) : l ≠ [] := by
  intro h0
  rw [h0] at h
  simp [identTok] at h

theorem word_no_dot {l : List Char} (h : ∀ c ∈ l, isWordChar c = true) :
    '.' ∉ l := by
  intro hm
  have h2 := h '.' hm
  exact absurd h2 (by decide)

theorem count_one_split {ref : List Char} (h : ref.count '.' = 1) :
    ∃ a b, ref = a ++ '.' :: b ∧ '.' ∉ a ∧ '.' ∉ b := by
  induction ref with
  | nil => simp at h
  | cons c cs ih =>
    by_cases hc : c = '.'
    · subst hc
      have hcs : cs.count '.' = 0 := by
        rw [List.count_cons_self] at h
        omega
      exact ⟨[], cs, by simp, by simp, List.count_eq_zero.mp hcs⟩
    · have hcs : cs.count '.' = 1 := by
        have h2 := h
        rw [List.count_cons_of_ne (Ne.symm hc)] at h2
        exact h2
      obtain ⟨a, b, h1, h2, h3⟩ := ih hcs
      refine ⟨c :: a, b, ?_, ?_, h3⟩
      · rw [h1]
        rfl
      · intro hm
        rcases List.mem_cons.mp hm with h4 | h4
        · exact hc h4.symm
        · exact h2 h4

theorem refShape_prepend {D ref : List Char} {c0 : Char} {ct : List Char}
    (hD : D = c0 :: ct) (h0 : isIdStart c0 = true)
    (hid : ∀ c ∈ ct, isIdChar c = true)
    (href : refShape ref = true) :
    refShape (D ++ ref) = true := by
  refine refShape_iff.mpr ⟨c0, ct ++ ref, by rw [hD]; rfl, h0, ?_, ?_⟩
  · intro h0x
    have h2 := refShape_len href
    rw [(List.append_eq_nil.mp h0x).2] at h2
    simp at h2
  · refine List.all_eq_true.mpr ?_
    intro x hx
    rcases List.mem_append.mp hx with h | h
    · exact hid x h
    · exact refShape_all_id href x h

theorem ntr_two {conn db ref : List Char} (h0 : ¬ ref.count '.' = 0)
    (h1 : ¬ ref.count '.' = 1) : newTableRef conn db ref = ref := by
  unfold newTableRef
  rw [if_neg h0, if_neg h1]

theorem ntr_zero_local {conn db ref : List Char} (h : ref.count '.' = 0)
    (hc : conn = "local".data) : newTableRef conn db ref = ref := by
  unfold newTableRef
  rw [if_pos h, if_neg (by simp [hc])]

theorem ntr_zero_nonlocal {conn db ref : List Char} (h : ref.count '.' = 0)
    (hc : ¬ conn = "local".data) :
    newTableRef conn db ref =
      (if conn ≠ [] ∧ conn ≠ "local".data then conn ++ '.' :: db else db) ++
        '.' :: ref := by
  unfold newTableRef
  rw [if_pos h, if_pos hc]

theorem ntr_one (conn db a b : List Char) (ha : '.' ∉ a) (hb : '.' ∉ b) :
    newTableRef conn db (a ++ '.' :: b) =
      if a = "local".data then a ++ '.' :: b
      else if conn ≠ "local".data ∧ a ≠ conn then conn ++ '.' :: a ++ '.' :: b
      else a ++ '.' :: b := by
  have hcount : (a ++ '.' :: b).count '.' = 1 := by
    simp [List.count_append, List.count_cons,
      List.count_eq_zero.mpr ha, List.count_eq_zero.mpr hb]
  have htake : (a ++ '.' :: b).takeWhile (fun c => c ≠ '.') = a := by
    rw [takeWhile_all_append _ a ('.' :: b)
        (fun c hcc => by simp [ne_eq]; rintro rfl; exact ha hcc)]
    simp
  unfold newTableRef
  rw [if_neg (by simp [hcount]), if_pos (by simp [hcount]), htake]
  by_cases hl : a = "local".data
  · rw [if_pos hl, if_pos hl]
  · rw [if_neg hl, if_neg hl]
    by_cases hc : conn = "local".data
    · rw [if_neg (by simp [hc]), if_neg (by simp [hc])]
    · rw [if_pos hc]
      by_cases hac : a = conn
      · have hpre : (conn ++ ['.']).isPrefixOf (a ++ '.' :: b) = true :=
          (isPrefixOf_dotted conn a b ha hb).mpr hac.symm
        rw [if_neg (by simp [hpre]), if_neg (by simp [hac])]
      · have hpre : ¬ (conn ++ ['.']).isPrefixOf (a ++ '.' :: b) = true := by
          rw [isPrefixOf_dotted conn a b ha hb]
          exact fun h => hac h.symm
        rw [if_pos (by simpa using hpre), if_pos ⟨hc, hac⟩]
        simp

theorem ntr_shape {conn db : List Char} (hconn : identTok conn = true)
    (ref : List Char) :
    newTableRef conn db ref = ref ∨
    (ref.count '.' = 0 ∧
      newTableRef conn db ref = (conn ++ ('.' :: (db ++ ['.']))) ++ ref) ∨
    (ref.count '.' = 1 ∧
      newTableRef conn db ref = (conn ++ ['.']) ++ ref) := by
  by_cases h0 : ref.count '.' = 0
  · by_cases hl : conn = "local".data
    · exact Or.inl (ntr_zero_local h0 hl)
    · right; left
      refine ⟨h0, ?_⟩
      rw [ntr_zero_nonlocal h0 hl, if_pos ⟨identTok_ne_nil hconn, hl⟩]
      simp [List.append_assoc]
  · by_cases h1 : ref.count '.' = 1
    · obtain ⟨a2, b2, href2, ha2, hb2⟩ := count_one_split h1
      rw [href2] at h1 ⊢
      rw [ntr_one conn db a2 b2 ha2 hb2]
      by_cases hla : a2 = "local".data
      · left
        rw [if_pos hla]
      · by_cases hcx : conn ≠ "local".data ∧ a2 ≠ conn
        · right; right
          refine ⟨h1, ?_⟩
          rw [if_neg hla, if_pos hcx]
          simp [List.append_assoc]
        · left
          rw [if_neg hla, if_neg hcx]
    · exact Or.inl (ntr_two h0 h1)

theorem ntr_R1 {conn db : List Char} (hconn : identTok conn = true)
    (hdb : identTok db = true) :
    ∀ ref, refShape ref = true →
      refShape (newTableRef conn db ref) = true := by
  intro ref href
  obtain ⟨c0, ct, hc⟩ : ∃ c0 ct, conn = c0 :: ct := by
    cases conn with
    | nil => exact absurd rfl (identTok_ne_nil hconn)
    | cons c0 ct => exact ⟨c0, ct, rfl⟩
  have hc0 : isIdStart c0 = true := by
    have h2 := hconn
    rw [hc] at h2
    simp only [identTok, Bool.and_eq_true] at h2
    exact h2.1
  have hcw := identTok_word hconn
  have hdw := identTok_word hdb
  rcases ntr_shape hconn ref with h | ⟨_, h⟩ | ⟨_, h⟩
  · rw [h]
    exact href
  · rw [h]
    have hD1 : conn ++ ('.' :: (db ++ ['.'])) =
        c0 :: (ct ++ ('.' :: (db ++ ['.']))) := by
      rw [hc]
      rfl
    refine refShape_prepend hD1 hc0 ?_ href
    intro x hx
    rcases List.mem_append.mp hx with h2 | h2
    · exact word_idChar (hcw x (by rw [hc]; exact List.mem_cons_of_mem _ h2))
    · rcases List.mem_cons.mp h2 with rfl | h3
      · decide
      · rcases List.mem_append.mp h3 with h4 | h4
        · exact word_idChar (hdw x h4)
        · rcases List.mem_cons.mp h4 with rfl | h5
          · decide
          · simp at h5
  · rw [h]
    have hD2 : conn ++ ['.'] = c0 :: (ct ++ ['.']) := by
      rw [hc]
      rfl
    refine refShape_prepend hD2 hc0 ?_ href
    intro x hx
    rcases List.mem_append.mp hx with h2 | h2
    · exact word_idChar (hcw x (by rw [hc]; exact List.mem_cons_of_mem _ h2))
    · rcases List.mem_cons.mp h2 with rfl | h5
      · decide
      · simp at h5

theorem ntr_R2 {conn db : List Char} (hconn : identTok conn = true)
    (hdb : identTok db = true) :
    ∀ ref, refShape ref = true →
      newTableRef conn db (newTableRef conn db ref) =
        newTableRef conn db ref := by
  intro ref _
  have hcc : conn.count '.' = 0 :=
    List.count_eq_zero.mpr (word_no_dot (identTok_word hconn))
  have hdc : db.count '.' = 0 :=
    List.count_eq_zero.mpr (word_no_dot (identTok_word hdb))
  rcases ntr_shape hconn ref with h | ⟨h0, h⟩ | ⟨h1, h⟩
  · rw [h]
    exact h
  · rw [h]
    have hc2 : ((conn ++ ('.' :: (db ++ ['.']))) ++ ref).count '.' = 2 := by
      simp [List.count_append, List.count_cons, List.count_nil, hcc, hdc, h0]
    exact ntr_two (by omega) (by omega)
  · rw [h]
    have hc2 : ((conn ++ ['.']) ++ ref).count '.' = 2 := by
      simp [List.count_append, List.count_cons, List.count_nil, hcc, h1]
    exact ntr_two (by omega) (by omega)

theorem ntr_RSH {conn db : List Char} (hconn : identTok conn = true)
    (hdb : identTok db = true) :
    ∀ ref, refShape ref = true →
      newTableRef conn db ref = ref ∨
        ∃ D, newTableRef conn db ref = D ++ ref ∧
          (∀ c ∈ D, isIdChar c = true) ∧ ∃ L, D = L ++ ['.'] := by
  intro ref _
  have hcw := identTok_word hconn
  have hdw := identTok_word hdb
  rcases ntr_shape hconn ref with h | ⟨_, h⟩ | ⟨_, h⟩
  · exact Or.inl h
  · refine Or.inr ⟨conn ++ ('.' :: (db ++ ['.'])), h, ?_,
      conn ++ ('.' :: db), ?_⟩
    · intro x hx
      rcases List.mem_append.mp hx with h2 | h2
      · exact word_idChar (hcw x h2)
      · rcases List.mem_cons.mp h2 with rfl | h3
        · decide
        · rcases List.mem_append.mp h3 with h4 | h4
          · exact word_idChar (hdw x h4)
          · rcases List.mem_cons.mp h4 with rfl | h5
            · decide
            · simp at h5
    · simp [List.append_assoc]
  · refine Or.inr ⟨conn ++ ['.'], h, ?_, conn, rfl⟩
    intro x hx
    rcases List.mem_append.mp hx with h2 | h2
    · exact word_idChar (hcw x h2)
    · rcases List.mem_cons.mp h2 with rfl | h5
      · decide
      · simp at h5

theorem ntr_R3 {conn db : List Char} (hconn : identTok conn = true)
    (hdb : identTok db = true) :
    ∀ α x y : List Char, (α = [] ∨ ∃ L, α = L ++ ['.']) →
      refShape (α ++ x) = true → refShape (α ++ y) = true →
      (∀ c ∈ x, isWordChar c = true) → (∀ c ∈ y, isWordChar c = true) →
      newTableRef conn db (α ++ x) = α ++ x →
      newTableRef conn db (α ++ y) = α ++ y := by
  intro α x y hα hrx hry hxw hyw hstab
  have hxc : x.count '.' = 0 := List.count_eq_zero.mpr (word_no_dot hxw)
  have hyc : y.count '.' = 0 := List.count_eq_zero.mpr (word_no_dot hyw)
  rcases hα with h0 | ⟨L, hL⟩
  · subst h0
    simp only [List.nil_append] at hstab ⊢
    by_cases hcl : conn = "local".data
    · exact ntr_zero_local hyc hcl
    · exfalso
      rw [ntr_zero_nonlocal hxc hcl] at hstab
      have h3 := congrArg List.length hstab
      simp [List.length_append] at h3
      omega
  · by_cases hLd : '.' ∈ L
    · have h1 : 1 ≤ L.count '.' := List.one_le_count_iff.mpr hLd
      refine ntr_two ?_ ?_
      · intro h2
        rw [hL, List.count_append, List.count_append, hyc,
          show (['.'] : List Char).count '.' = 1 from by decide] at h2
        omega
      · intro h2
        rw [hL, List.count_append, List.count_append, hyc,
          show (['.'] : List Char).count '.' = 1 from by decide] at h2
        omega
    · have hax : α ++ x = L ++ '.' :: x := by
        rw [hL]
        simp
      have hay : α ++ y = L ++ '.' :: y := by
        rw [hL]
        simp
      rw [hay, ntr_one conn db L y hLd (word_no_dot hyw)]
      by_cases hLl : L = "local".data
      · rw [if_pos hLl]
      · by_cases hcx : conn ≠ "local".data ∧ L ≠ conn
        · exfalso
          have h2 := ntr_one conn db L x hLd (word_no_dot hxw)
          rw [if_neg hLl, if_pos hcx] at h2
          rw [hax] at hstab
          have h3 := congrArg List.length (hstab.symm.trans h2)
          simp [List.length_append] at h3
          omega
        · rw [if_neg hLl, if_neg hcx]

/-! ### The four keyword passes commute with fixedness: assembly -/

theorem kwHeadNe_intro {K J : List Char} (h : ¬ K.head? = J.head?) :
    kwHeadNe K J := by
  intro c1 c2 t1 t2 h1 h2 hcc
  exact h (by rw [h1, h2, hcc]; simp)

theorem qualify_idem_core {K1 K2 K3 K4 : List Char}
    (rw : List Char → List Char)
    (hg1 : kwGood K1) (hg2 : kwGood K2) (hg3 : kwGood K3) (hg4 : kwGood K4)
    (h12 : kwHeadNe K1 K2) (h13 : kwHeadNe K1 K3) (h14 : kwHeadNe K1 K4)
    (h23 : kwHeadNe K2 K3) (h24 : kwHeadNe K2 K4) (h34 : kwHeadNe K3 K4)
    (hn12 : kwNoEnd K1 K2) (hn13 : kwNoEnd K1 K3) (hn14 : kwNoEnd K1 K4)
    (hn23 : kwNoEnd K2 K3) (hn24 : kwNoEnd K2 K4) (hn34 : kwNoEnd K3 K4)
    (hR1 : ∀ ref, refShape ref = true → refShape (rw ref) = true)
    (hR2 : ∀ ref, refShape ref = true → rw (rw ref) = rw ref)
    (hRSH : ∀ ref, refShape ref = true →
      rw ref = ref ∨ ∃ D, rw ref = D ++ ref ∧ (∀ c ∈ D, isIdChar c = true) ∧
        ∃ L, D = L ++ ['.'])
    (hR3 : ∀ α x y, (α = [] ∨ ∃ L, α = L ++ ['.']) →
      refShape (α ++ x) = true → refShape (α ++ y) = true →
      (∀ c ∈ x, isWordChar c = true) → (∀ c ∈ y, isWordChar c = true) →
      rw (α ++ x) = α ++ x → rw (α ++ y) = α ++ y)
    (s : List Char) :
    scanF rw K4 false (scanF rw K3 false (scanF rw K2 false (scanF rw K1 false
      (scanF rw K4 false (scanF rw K3 false (scanF rw K2 false
        (scanF rw K1 false s))))))) =
    scanF rw K4 false (scanF rw K3 false (scanF rw K2 false
      (scanF rw K1 false s))) := by
  have hGP12 : ∀ t, scanF rw K1 false t = t →
      scanF rw K1 false (scanF rw K2 false t) = scanF rw K2 false t :=
    fun t h => (master hg1 hg2 h12 hn12 rw hR1 hRSH hR3 t.length).2 t
      (Nat.le_refl _) h
  have hGP13 : ∀ t, scanF rw K1 false t = t →
      scanF rw K1 false (scanF rw K3 false t) = scanF rw K3 false t :=
    fun t h => (master hg1 hg3 h13 hn13 rw hR1 hRSH hR3 t.length).2 t
      (Nat.le_refl _) h
  have hGP14 : ∀ t, scanF rw K1 false t = t →
      scanF rw K1 false (scanF rw K4 false t) = scanF rw K4 false t :=
    fun t h => (master hg1 hg4 h14 hn14 rw hR1 hRSH hR3 t.length).2 t
      (Nat.le_refl _) h
  have hGP23 : ∀ t, scanF rw K2 false t = t →
      scanF rw K2 false (scanF rw K3 false t) = scanF rw K3 false t :=
    fun t h => (master hg2 hg3 h23 hn23 rw hR1 hRSH hR3 t.length).2 t
      (Nat.le_refl _) h
  have hGP24 : ∀ t, scanF rw K2 false t = t →
      scanF rw K2 false (scanF rw K4 false t) = scanF rw K4 false t :=
    fun t h => (master hg2 hg4 h24 hn24 rw hR1 hRSH hR3 t.length).2 t
      (Nat.le_refl _) h
  have hGP34 : ∀ t, scanF rw K3 false t = t →
      scanF rw K3 false (scanF rw K4 false t) = scanF rw K4 false t :=
    fun t h => (master hg3 hg4 h34 hn34 rw hR1 hRSH hR3 t.length).2 t
      (Nat.le_refl _) h
  have f1 : scanF rw K1 false (scanF rw K1 false s) = scanF rw K1 false s :=
    scan_idem_aux hg1 rw hR1 hR2 s.length s (Nat.le_refl _)
  have f2 := hGP12 _ f1
  have f3 := hGP13 _ f2
  have f4 := hGP14 _ f3
  have g2 : scanF rw K2 false (scanF rw K2 false (scanF rw K1 false s)) =
      scanF rw K2 false (scanF rw K1 false s) :=
    scan_idem_aux hg2 rw hR1 hR2 (scanF rw K1 false s).length _ (Nat.le_refl _)
  have g3 := hGP23 _ g2
  have g4 := hGP24 _ g3
  have i3 : scanF rw K3 false (scanF rw K3 false (scanF rw K2 false
      (scanF rw K1 false s))) =
      scanF rw K3 false (scanF rw K2 false (scanF rw K1 false s)) :=
    scan_idem_aux hg3 rw hR1 hR2
      (scanF rw K2 false (scanF rw K1 false s)).length _ (Nat.le_refl _)
  have i4 := hGP34 _ i3
  have u4 : scanF rw K4 false (scanF rw K4 false (scanF rw K3 false
      (scanF rw K2 false (scanF rw K1 false s)))) =
      scanF rw K4 false (scanF rw K3 false (scanF rw K2 false
        (scanF rw K1 false s))) :=
    scan_idem_aux hg4 rw hR1 hR2
      (scanF rw K3 false (scanF rw K2 false (scanF rw K1 false s))).length _
      (Nat.le_refl _)
  rw [f4, g4, i4, u4]

/-! ### Claim C8 -/

/-- Claim C8 (amended): the reference-qualification transform is idempotent
for every sql string whenever the session's connection and schema names are
identifier tokens (`[A-Za-z_][A-Za-z0-9_]*`): applying the four keyword
passes twice yields the same result as applying them once. -/
theorem c8_theorem (conn db sql : List Char) (hconn : identTok conn = true)
    (hdb : identTok db = true) :
    applyQualify conn db (applyQualify conn db sql) =
      applyQualify conn db sql := by
  have hAQ : ∀ t : List Char, applyQualify conn db t =
      scanF (newTableRef conn db) "UPDATE".data false
        (scanF (newTableRef conn db) "INTO".data false
          (scanF (newTableRef conn db) "JOIN".data false
            (scanF (newTableRef conn db) "FROM".data false t))) :=
    fun t => rfl
  rw [hAQ, hAQ]
  exact qualify_idem_core (newTableRef conn db)
    (by exact ⟨by decide, by decide, by decide, by decide⟩)
    (by exact ⟨by decide, by decide, by decide, by decide⟩)
    (by exact ⟨by decide, by decide, by decide, by decide⟩)
    (by exact ⟨by decide, by decide, by decide, by decide⟩)
    (kwHeadNe_intro (by decide)) (kwHeadNe_intro (by decide))
    (kwHeadNe_intro (by decide)) (kwHeadNe_intro (by decide))
    (kwHeadNe_intro (by decide)) (kwHeadNe_intro (by decide))
    (kwNoEnd_intro (Or.inl (by decide))) (kwNoEnd_intro (Or.inl (by decide)))
    (kwNoEnd_intro (Or.inl (by decide))) (kwNoEnd_intro (Or.inl (by decide)))
    (kwNoEnd_intro (Or.inl (by decide))) (kwNoEnd_intro (Or.inl (by decide)))
    (ntr_R1 hconn hdb) (ntr_R2 hconn hdb) (ntr_RSH hconn hdb)
    (ntr_R3 hconn hdb) sql

/-- Counterexample to claim C8 as stated: for an arbitrary non-default
session context (`db` nonempty and different from `local`) qualification
need not be idempotent.  With connection `mysrv` and schema `x FROM yz`
(the code nowhere validates the stored names), qualifying
`SELECT * FROM t1` once injects a new `FROM` keyword into the query, and
the second application rewrites the reference after it again. -/
theorem c8_counterexample :
    ∃ conn db sql : List Char, db ≠ [] ∧ db ≠ "local".data ∧
      applyQualify conn db (applyQualify conn db sql) ≠
        applyQualify conn db sql :=
  ⟨"mysrv".data, "x FROM yz".data, "SELECT * FROM t1".data,
    by decide, by decide, by decide⟩

/-- Witness for claim C8: the idempotence theorem applied to the concrete
context `mysrv`/`sales` and the query `SELECT * FROM orders`. -/
theorem c8_witness :
    identTok "mysrv".data = true ∧ identTok "sales".data = true ∧
      applyQualify "mysrv".data "sales".data
        (applyQualify "mysrv".data "sales".data "SELECT * FROM orders".data) =
        applyQualify "mysrv".data "sales".data "SELECT * FROM orders".data :=
  ⟨by decide, by decide,
    c8_theorem "mysrv".data "sales".data "SELECT * FROM orders".data
      (by decide) (by decide)⟩

end NewSql
